import Mathlib

/-!
# Signer pipeline and search-server sorting

A shallow embedding of `second_week/signer.go` (the stages `SingleHash`,
`MultiHash`, `CombineResults` and their wiring by `ExecutePipeline`) and of
`sortUsers`, `filterUsers` and `SearchServer` from `fourth_week/client_test.go`.

Goroutines are embedded as interleaving transition systems: a stage state holds
the unread part of the input queue and one record per started worker, an
action names the worker that moves, and a run is a list of actions. A property
"for every interleaving" is a property of every run.

Go strings are embedded as Lean strings; the byte-wise order of Go coincides
with the code-point order used here on well-formed UTF-8 text.
-/

namespace Signer

/-! ## Strings -/

/-- Go's `<` on strings: lexicographic comparison, element by element. -/
def bytesLess : List Char → List Char → Bool
  | [], [] => false
  | [], _ :: _ => true
  | _ :: _, [] => false
  | a :: as, b :: bs =>
    if a.toNat < b.toNat then true
    else if b.toNat < a.toNat then false
    else bytesLess as bs

/-- Go's `a < b` for strings. -/
def stringLess (a b : String) : Bool := bytesLess a.data b.data

/-- Go's `strings.Join(elems, sep)`: nothing for no element, the element itself
for one, otherwise the first element followed by `sep ++ s` for every further
element `s`. -/
def Join : List String → String → String
  | [], _ => ""
  | [x], _ => x
  | x :: xs, sep => xs.foldl (fun b s => b ++ sep ++ s) x

/-- Go's `sort.Slice(xs, less)`: the elements rearranged so that no element is
`less` than one standing before it. The library sort is not stable; every
statement below about `sortSlice` holds for any rearrangement with that
property. -/
def sortSlice {α : Type} (less : α → α → Bool) (xs : List α) : List α :=
  xs.insertionSort (fun a b => less b a = false)

/-- Go's `sort.Strings`: ascending order under `<` on strings. -/
def sortStrings (xs : List String) : List String := sortSlice stringLess xs

/-- Go's `strconv.Itoa`: the decimal rendering of an integer, with a leading
`-` for a negative one. -/
def Itoa : Int → String
  | Int.ofNat m => Nat.repr m
  | Int.negSucc m => "-" ++ Nat.repr (m + 1)

/-- The value of a decimal digit. -/
def digitValue (c : Char) : Nat := c.toNat - 48

/-- Reads a decimal rendering back, most significant digit first. -/
def readDecimal (l : List Char) : Nat := l.foldl (fun acc c => acc * 10 + digitValue c) 0

/-! ## Hash provider -/

/-- The two digest functions of the hash provider (`common.go`). -/
structure Provider where
  /-- The unrestricted hash. -/
  DataSignerCrc32 : String → String
  /-- The rate-limited hash. -/
  DataSignerMd5 : String → String

/-! ## `SingleHash` -/

/-- Where a `SingleHash` worker (the goroutine of lines 32-51) stands. -/
inductive SHPc where
  /-- Line 36: before `mu.Lock()`. -/
  | atLock
  /-- Line 37: the lock is held, `DataSignerMd5` is not yet entered. -/
  | atCall
  /-- Line 37: the lock is held, the call of `DataSignerMd5` is in flight. -/
  | inMd5
  /-- Line 38: the call has returned `md5data`, before `mu.Unlock()`. -/
  | atUnlock (md5data : String)
  /-- Line 50, first receive `<-crc32Chan`. `c1` and `c2` hold what the two
  sub-tasks of lines 41-48 have computed and are offering on their channels. -/
  | recvLeft (md5data : String) (c1 c2 : Option String)
  /-- Line 50, second receive `<-crc32md5Chan`, the first part in hand. -/
  | recvRight (left md5data : String) (c2 : Option String)
  /-- Line 50: the send `out <- ...` of the assembled string. -/
  | sendOut (res : String)
  /-- The worker has sent `res` and returned. -/
  | done (res : String)
  deriving DecidableEq

/-- A started worker: the item it was started for and where it stands. -/
structure SHWorker where
  data : Int
  pc : SHPc
  deriving DecidableEq

/-- The moves of one worker. -/
inductive SHOp where
  | lock
  | call
  | ret
  | unlock
  | crcLeft
  | crcRight
  | takeLeft
  | takeRight
  | send
  deriving DecidableEq

/-- One move of a worker. Takes the state `mu` of the lock; gives the worker
after the move, the lock after the move and the item written to `out`, if any.
`none` when the move is not enabled. -/
def SHWorkerStep (P : Provider) (mu : Bool) (w : SHWorker) :
    SHOp → Option (SHWorker × Bool × Option String)
  | .lock =>
    match w.pc with
    | .atLock => if mu then none else some (⟨w.data, .atCall⟩, true, none)
    | _ => none
  | .call =>
    match w.pc with
    | .atCall => some (⟨w.data, .inMd5⟩, mu, none)
    | _ => none
  | .ret =>
    match w.pc with
    | .inMd5 => some (⟨w.data, .atUnlock (P.DataSignerMd5 (Itoa w.data))⟩, mu, none)
    | _ => none
  | .unlock =>
    match w.pc with
    | .atUnlock md5data => some (⟨w.data, .recvLeft md5data none none⟩, false, none)
    | _ => none
  | .crcLeft =>
    match w.pc with
    | .recvLeft md5data none c2 =>
      some (⟨w.data, .recvLeft md5data (some (P.DataSignerCrc32 (Itoa w.data))) c2⟩, mu, none)
    | _ => none
  | .crcRight =>
    match w.pc with
    | .recvLeft md5data c1 none =>
      some (⟨w.data, .recvLeft md5data c1 (some (P.DataSignerCrc32 md5data))⟩, mu, none)
    | .recvRight left md5data none =>
      some (⟨w.data, .recvRight left md5data (some (P.DataSignerCrc32 md5data))⟩, mu, none)
    | _ => none
  | .takeLeft =>
    match w.pc with
    | .recvLeft md5data (some left) c2 => some (⟨w.data, .recvRight left md5data c2⟩, mu, none)
    | _ => none
  | .takeRight =>
    match w.pc with
    | .recvRight left _ (some right) => some (⟨w.data, .sendOut (left ++ "~" ++ right)⟩, mu, none)
    | _ => none
  | .send =>
    match w.pc with
    | .sendOut res => some (⟨w.data, .done res⟩, mu, some res)
    | _ => none

/-- The moves of `SHWorkerStep`, one rule per enabled move: the lock before the
move, the worker before it, the move, the worker after it, the lock after it
and the item written to `out`. -/
inductive SHMove (P : Provider) : Bool → SHWorker → SHOp → SHWorker → Bool → Option String → Prop
  | lock (n : Int) : SHMove P false ⟨n, .atLock⟩ .lock ⟨n, .atCall⟩ true none
  | call (mu : Bool) (n : Int) : SHMove P mu ⟨n, .atCall⟩ .call ⟨n, .inMd5⟩ mu none
  | ret (mu : Bool) (n : Int) :
    SHMove P mu ⟨n, .inMd5⟩ .ret ⟨n, .atUnlock (P.DataSignerMd5 (Itoa n))⟩ mu none
  | unlock (mu : Bool) (n : Int) (m : String) :
    SHMove P mu ⟨n, .atUnlock m⟩ .unlock ⟨n, .recvLeft m none none⟩ false none
  | crcLeft (mu : Bool) (n : Int) (m : String) (c2 : Option String) :
    SHMove P mu ⟨n, .recvLeft m none c2⟩ .crcLeft
      ⟨n, .recvLeft m (some (P.DataSignerCrc32 (Itoa n))) c2⟩ mu none
  | crcRight (mu : Bool) (n : Int) (m : String) (c1 : Option String) :
    SHMove P mu ⟨n, .recvLeft m c1 none⟩ .crcRight
      ⟨n, .recvLeft m c1 (some (P.DataSignerCrc32 m))⟩ mu none
  | crcRightLate (mu : Bool) (n : Int) (l m : String) :
    SHMove P mu ⟨n, .recvRight l m none⟩ .crcRight
      ⟨n, .recvRight l m (some (P.DataSignerCrc32 m))⟩ mu none
  | takeLeft (mu : Bool) (n : Int) (m l : String) (c2 : Option String) :
    SHMove P mu ⟨n, .recvLeft m (some l) c2⟩ .takeLeft ⟨n, .recvRight l m c2⟩ mu none
  | takeRight (mu : Bool) (n : Int) (l m r : String) :
    SHMove P mu ⟨n, .recvRight l m (some r)⟩ .takeRight ⟨n, .sendOut (l ++ "~" ++ r)⟩ mu none
  | send (mu : Bool) (n : Int) (res : String) :
    SHMove P mu ⟨n, .sendOut res⟩ .send ⟨n, .done res⟩ mu (some res)

/-- A running `SingleHash`: the items of `in` not yet read, the workers started
so far in the order of their start, and whether `mu` is held. -/
structure SHState where
  input : List Int
  workers : List SHWorker
  mu : Bool
  deriving DecidableEq

/-- An action of `SingleHash`: the loop of line 30 reads the next item and
starts its worker, or worker `i` makes a move. -/
inductive SHAction where
  | read
  | op (i : Nat) (o : SHOp)
  deriving DecidableEq

/-- One step of `SingleHash`, with the item written to `out`, if any. -/
def SHStep (P : Provider) (s : SHState) : SHAction → Option (SHState × Option String)
  | .read =>
    match s.input with
    | [] => none
    | n :: rest => some ({ s with input := rest, workers := s.workers ++ [⟨n, .atLock⟩] }, none)
  | .op i o =>
    match s.workers[i]? with
    | none => none
    | some w =>
      match SHWorkerStep P s.mu w o with
      | none => none
      | some (w', mu', e) => some ({ s with workers := s.workers.set i w', mu := mu' }, e)

/-- A run of `SingleHash`: the actions are taken in turn, the items written to
`out` are appended to `out`. `none` when an action is not enabled. -/
def SHRun (P : Provider) : List SHAction → SHState × List String → Option (SHState × List String)
  | [], c => some c
  | a :: as, (s, out) =>
    match SHStep P s a with
    | none => none
    | some (s', e) => SHRun P as (s', out ++ e.toList)

/-- The start of `SingleHash` on the items `inputs`. -/
def SHInit (inputs : List Int) : SHState := ⟨inputs, [], false⟩

/-- Whether a worker has returned. -/
def SHWorker.isDone (w : SHWorker) : Bool :=
  match w.pc with
  | .done _ => true
  | _ => false

/-- Whether a worker has a call of `DataSignerMd5` in flight. -/
def SHWorker.inFlight (w : SHWorker) : Bool :=
  match w.pc with
  | .inMd5 => true
  | _ => false

/-- Whether `SingleHash` has returned: `in` is drained and `wg.Wait()` is
through, every worker having returned. -/
def SHState.finished (s : SHState) : Bool :=
  s.input.isEmpty && s.workers.all SHWorker.isDone

/-- The schedule that runs one item after the other, each worker to its end
before the next item is read. -/
def SHSequential : Nat → Nat → List SHAction
  | _, 0 => []
  | i, k + 1 =>
    [.read, .op i .lock, .op i .call, .op i .ret, .op i .unlock, .op i .crcLeft,
      .op i .crcRight, .op i .takeLeft, .op i .takeRight, .op i .send] ++ SHSequential (i + 1) k

/-- What the specification asks `SingleHash` to write for the item `n`. -/
def SingleHashSpec (P : Provider) (n : Int) : String :=
  P.DataSignerCrc32 (Itoa n) ++ "~" ++ P.DataSignerCrc32 (P.DataSignerMd5 (Itoa n))

/-- Whether a worker holds the lock `mu`. -/
def SHWorker.holdsLock (w : SHWorker) : Bool :=
  match w.pc with
  | .atCall => true
  | .inMd5 => true
  | .atUnlock _ => true
  | _ => false

/-- The values a worker carries are the ones computed from its item. -/
def SHWorker.ok (P : Provider) (w : SHWorker) : Prop :=
  match w.pc with
  | .atLock => True
  | .atCall => True
  | .inMd5 => True
  | .atUnlock md5data => md5data = P.DataSignerMd5 (Itoa w.data)
  | .recvLeft md5data c1 c2 =>
    md5data = P.DataSignerMd5 (Itoa w.data) ∧
      (∀ v, c1 = some v → v = P.DataSignerCrc32 (Itoa w.data)) ∧
      (∀ v, c2 = some v → v = P.DataSignerCrc32 (P.DataSignerMd5 (Itoa w.data)))
  | .recvRight left md5data c2 =>
    left = P.DataSignerCrc32 (Itoa w.data) ∧ md5data = P.DataSignerMd5 (Itoa w.data) ∧
      (∀ v, c2 = some v → v = P.DataSignerCrc32 (P.DataSignerMd5 (Itoa w.data)))
  | .sendOut res => res = SingleHashSpec P w.data
  | .done res => res = SingleHashSpec P w.data

/-- The invariant of a running `SingleHash`: every worker carries the values
computed from its item, and the lock is held exactly when one worker holds it. -/
def SHState.ok (P : Provider) (s : SHState) : Prop :=
  (∀ w ∈ s.workers, w.ok P) ∧ s.workers.countP SHWorker.holdsLock = if s.mu then 1 else 0

/-- The items a worker has still to deliver, seen through `h`. -/
def SHOwed {β : Type} (P : Provider) (h : String → β) (w : SHWorker) : List β :=
  if w.isDone then [] else [h (SingleHashSpec P w.data)]

/-- The items `SingleHash` has still to deliver, seen through `h`. -/
def SHPending {β : Type} (P : Provider) (h : String → β) (s : SHState) : List β :=
  s.workers.flatMap (SHOwed P h) ++ s.input.map (fun n => h (SingleHashSpec P n))

/-- The number of moves a worker has left. -/
def SHRank : SHPc → Nat
  | .atLock => 9
  | .atCall => 8
  | .inMd5 => 7
  | .atUnlock _ => 6
  | .recvLeft _ c1 c2 => 3 + (if c1.isSome then 0 else 1) + (if c2.isSome then 0 else 1)
  | .recvRight _ _ c2 => 2 + (if c2.isSome then 0 else 1)
  | .sendOut _ => 1
  | .done _ => 0

/-- The moves a worker has left, plus `c` for the item it has still to write. -/
def SHWorker.weight (c : Nat) (w : SHWorker) : Nat :=
  SHRank w.pc + if w.isDone then 0 else c

/-- A bound on the number of steps `SingleHash` can still take, each item still
to be written counting `c` more. -/
def SHMeasure (c : Nat) (s : SHState) : Nat :=
  (s.workers.map (SHWorker.weight c)).sum + s.input.length * (10 + c)

/-- The move a worker that has not returned makes next. -/
def SHNextOp : SHPc → SHOp
  | .atLock => .lock
  | .atCall => .call
  | .inMd5 => .ret
  | .atUnlock _ => .unlock
  | .recvLeft _ none _ => .crcLeft
  | .recvLeft _ (some _) _ => .takeLeft
  | .recvRight _ _ none => .crcRight
  | .recvRight _ _ (some _) => .takeRight
  | .sendOut _ => .send
  | .done _ => .send

/-! ## Two invocations of `SingleHash` -/

/-- An action of two invocations of `SingleHash` that run in one process: a
step of the first or a step of the second. -/
inductive PairAction where
  | first (a : SHAction)
  | second (a : SHAction)
  deriving DecidableEq

/-- One step of two invocations of `SingleHash` running side by side. Each
invocation has the lock `mu` that its own line 28 made. -/
def PairStep (P : Provider) (s : SHState × SHState) : PairAction → Option (SHState × SHState)
  | .first a =>
    match SHStep P s.1 a with
    | none => none
    | some (s1, _) => some (s1, s.2)
  | .second a =>
    match SHStep P s.2 a with
    | none => none
    | some (s2, _) => some (s.1, s2)

/-- A run of two invocations of `SingleHash` running side by side. -/
def PairRun (P : Provider) : List PairAction → SHState × SHState → Option (SHState × SHState)
  | [], s => some s
  | a :: as, s =>
    match PairStep P s a with
    | none => none
    | some s' => PairRun P as s'

/-! ## `MultiHash` -/

/-- Where a sub-task of a `MultiHash` worker (the goroutine of lines 72-80)
stands. -/
inductive MHSub where
  /-- Line 75: `DataSignerCrc32(thData)` is being computed. -/
  | hashing
  /-- Lines 77-79: `res` is computed and not yet stored; the store
  `mhData[th] = res` under `muIn` is one move. -/
  | ready (res : String)
  /-- The sub-task has stored its result and returned. -/
  | finished
  deriving DecidableEq

/-- A started `MultiHash` worker (the goroutine of lines 62-85): its item, the
loop counter `th` of line 69, the sub-tasks started so far (sub-task `k` at
position `k`), the slots `mhData`, and the string it has written to `out`,
once it has. -/
structure MHWorker where
  data : String
  th : Nat
  subs : List MHSub
  mhData : List String
  sent : Option String
  deriving DecidableEq

/-- The moves of one `MultiHash` worker and of its sub-tasks. -/
inductive MHOp where
  | spawn
  | hash (k : Nat)
  | store (k : Nat)
  | send
  deriving DecidableEq

/-- Whether a sub-task has returned. -/
def MHSub.isFinished : MHSub → Bool
  | .finished => true
  | _ => false

/-- The worker as line 65 leaves it: six empty slots, no sub-task started. -/
def MHWorker.start (data : String) : MHWorker :=
  ⟨data, 0, [], List.replicate 6 "", none⟩

/-- One move of a `MultiHash` worker, with the item written to `out`, if any.
`none` when the move is not enabled. -/
def MHWorkerStep (P : Provider) (w : MHWorker) : MHOp → Option (MHWorker × Option String)
  | .spawn =>
    if w.th < 6 then some ({ w with th := w.th + 1, subs := w.subs ++ [.hashing] }, none)
    else none
  | .hash k =>
    match w.subs[k]? with
    | some .hashing =>
      let res := P.DataSignerCrc32 (Itoa (Int.ofNat k) ++ w.data)
      some ({ w with subs := w.subs.set k (.ready res) }, none)
    | _ => none
  | .store k =>
    match w.subs[k]? with
    | some (.ready res) =>
      some ({ w with subs := w.subs.set k .finished, mhData := w.mhData.set k res }, none)
    | _ => none
  | .send =>
    if w.th = 6 ∧ w.subs.all MHSub.isFinished = true ∧ w.sent = none then
      some ({ w with sent := some (Join w.mhData "") }, some (Join w.mhData ""))
    else none

/-- A running `MultiHash`: the items of `in` not yet read and the workers
started so far. -/
structure MHState where
  input : List String
  workers : List MHWorker
  deriving DecidableEq

/-- An action of `MultiHash`: the loop of line 60 reads the next item and
starts its worker, or worker `i` (or one of its sub-tasks) makes a move. -/
inductive MHAction where
  | read
  | op (i : Nat) (o : MHOp)
  deriving DecidableEq

/-- One step of `MultiHash`, with the item written to `out`, if any. -/
def MHStep (P : Provider) (s : MHState) : MHAction → Option (MHState × Option String)
  | .read =>
    match s.input with
    | [] => none
    | d :: rest => some (⟨rest, s.workers ++ [MHWorker.start d]⟩, none)
  | .op i o =>
    match s.workers[i]? with
    | none => none
    | some w =>
      match MHWorkerStep P w o with
      | none => none
      | some (w', e) => some ({ s with workers := s.workers.set i w' }, e)

/-- A run of `MultiHash`, the items written to `out` appended to `out`. -/
def MHRun (P : Provider) : List MHAction → MHState × List String → Option (MHState × List String)
  | [], c => some c
  | a :: as, (s, out) =>
    match MHStep P s a with
    | none => none
    | some (s', e) => MHRun P as (s', out ++ e.toList)

/-- The start of `MultiHash` on the items `inputs`. -/
def MHInit (inputs : List String) : MHState := ⟨inputs, []⟩

/-- Whether a worker has returned. -/
def MHWorker.isDone (w : MHWorker) : Bool := w.sent.isSome

/-- Whether `MultiHash` has returned. -/
def MHState.finished (s : MHState) : Bool :=
  s.input.isEmpty && s.workers.all MHWorker.isDone

/-- The moves that run worker `i` from its start to its end, the sub-tasks
storing in the order `order`. -/
def MHWorkerSchedule (i : Nat) (order : List Nat) : List MHAction :=
  (List.replicate 6 (MHAction.op i .spawn)) ++ (List.range 6).map (fun k => .op i (.hash k))
    ++ order.map (fun k => .op i (.store k)) ++ [.op i .send]

/-- What the specification asks `MultiHash` to write for the item `data`. -/
def MultiHashSpec (P : Provider) (data : String) : String :=
  P.DataSignerCrc32 ("0" ++ data) ++ P.DataSignerCrc32 ("1" ++ data) ++
    P.DataSignerCrc32 ("2" ++ data) ++ P.DataSignerCrc32 ("3" ++ data) ++
    P.DataSignerCrc32 ("4" ++ data) ++ P.DataSignerCrc32 ("5" ++ data)

/-- The values a `MultiHash` worker carries are the ones computed from its
item: a computed result is the hash of its salted item, a stored result stands
in its own slot. -/
def MHWorker.ok (P : Provider) (w : MHWorker) : Prop :=
  w.subs.length = w.th ∧ w.th ≤ 6 ∧ w.mhData.length = 6 ∧
    (∀ k r, w.subs[k]? = some (.ready r) →
      r = P.DataSignerCrc32 (Itoa (Int.ofNat k) ++ w.data)) ∧
    (∀ k, w.subs[k]? = some .finished →
      w.mhData[k]? = some (P.DataSignerCrc32 (Itoa (Int.ofNat k) ++ w.data))) ∧
    (∀ r, w.sent = some r → r = MultiHashSpec P w.data)

/-- The items a `MultiHash` worker has still to deliver, seen through `h`. -/
def MHOwed {β : Type} (P : Provider) (h : String → β) (w : MHWorker) : List β :=
  if w.isDone then [] else [h (MultiHashSpec P w.data)]

/-- The items `MultiHash` has still to deliver, seen through `h`. -/
def MHPending {β : Type} (P : Provider) (h : String → β) (s : MHState) : List β :=
  s.workers.flatMap (MHOwed P h) ++ s.input.map (fun d => h (MultiHashSpec P d))

/-- The invariant of a running `MultiHash`: every worker carries the values
computed from its item. -/
def MHState.ok (P : Provider) (s : MHState) : Prop := ∀ w ∈ s.workers, w.ok P

/-- The number of moves a sub-task has left. -/
def MHSubRank : MHSub → Nat
  | .hashing => 2
  | .ready _ => 1
  | .finished => 0

/-- The moves a worker and its sub-tasks have left, plus `c` for the item it
has still to write. -/
def MHWorker.weight (c : Nat) (w : MHWorker) : Nat :=
  (6 - w.th) * 3 + (w.subs.map MHSubRank).sum + if w.isDone then 0 else 1 + c

/-- A bound on the number of steps `MultiHash` can still take. -/
def MHMeasure (c : Nat) (s : MHState) : Nat :=
  (s.workers.map (MHWorker.weight c)).sum + s.input.length * (20 + c)

/-! ## `CombineResults` -/

/-- The stage `CombineResults` on the items `input` read from `in` until it is
closed: the loop of lines 93-95 appends each item to `results`, line 96 sorts,
line 97 writes the joined string. The value is the list of items written to
`out`. -/
def CombineResults (input : List String) : List String :=
  let results := input.foldl (fun results data => results ++ [data]) []
  [Join (sortStrings results) "_"]

/-! ## `ExecutePipeline` -/

/-- The pipeline `ExecutePipeline(..., SingleHash, MultiHash, CombineResults, ...)`
while it runs: the two transform stages, the items `CombineResults` has read so
far (its `results` of lines 92-95), and what it has written to its `out`. The
channels made in line 15 are unbuffered, so an item written by a stage is read
by the next stage in the same step; `mh.input` stays empty. -/
structure PipeState where
  sh : SHState
  mh : MHState
  results : List String
  out : List String
  deriving DecidableEq

/-- An action of the pipeline: a step of `SingleHash`, a step of `MultiHash`,
or the end of the loop of `CombineResults` with its sort, join and send. -/
inductive PipeAction where
  | single (a : SHAction)
  | multi (a : MHAction)
  | combine
  deriving DecidableEq

/-- The loop of line 60 of `MultiHash` receives the item `d` and starts its
worker. -/
def MHState.accept (s : MHState) (d : String) : MHState :=
  ⟨s.input, s.workers ++ [MHWorker.start d]⟩

/-- One step of the pipeline. An item written by `SingleHash` is received by
`MultiHash`; an item written by `MultiHash` is appended to `results` by
`CombineResults`; `CombineResults` leaves its loop once both stages before it
have returned and their `out` channels are closed (lines 17-19), and writes
once. -/
def PipeStep (P : Provider) (s : PipeState) : PipeAction → Option PipeState
  | .single a =>
    match SHStep P s.sh a with
    | none => none
    | some (sh', none) => some { s with sh := sh' }
    | some (sh', some item) => some { s with sh := sh', mh := s.mh.accept item }
  | .multi a =>
    match MHStep P s.mh a with
    | none => none
    | some (mh', e) => some { s with mh := mh', results := s.results ++ e.toList }
  | .combine =>
    if s.sh.finished && s.mh.finished && s.out.isEmpty then
      some { s with out := CombineResults s.results }
    else none

/-- A run of the pipeline. -/
def PipeRun (P : Provider) : List PipeAction → PipeState → Option PipeState
  | [], s => some s
  | a :: as, s =>
    match PipeStep P s a with
    | none => none
    | some s' => PipeRun P as s'

/-- The start of the pipeline on the items `inputs` fed to `SingleHash`. -/
def PipeInit (inputs : List Int) : PipeState := ⟨SHInit inputs, MHInit [], [], []⟩

/-- The string the specification asks the pipeline to produce. -/
def PipelineSpec (P : Provider) (inputs : List Int) : String :=
  Join (sortStrings (inputs.map (fun n => MultiHashSpec P (SingleHashSpec P n)))) "_"

/-- The invariant of a running pipeline. -/
def PipeState.ok (P : Provider) (inputs : List Int) (s : PipeState) : Prop :=
  s.sh.ok P ∧ s.mh.ok P ∧ s.mh.input = [] ∧
    (s.results ++ (MHPending P id s.mh ++ SHPending P (MultiHashSpec P) s.sh)).Perm
      (inputs.map (fun n => MultiHashSpec P (SingleHashSpec P n))) ∧
    (s.out = [] ∨ s.out = [PipelineSpec P inputs])

/-- A bound on the number of steps the pipeline can still take. -/
def PipeMeasure (s : PipeState) : Nat :=
  SHMeasure 19 s.sh + MHMeasure 0 s.mh + if s.out.isEmpty then 1 else 0

/-- The moves that run `SingleHash` worker `i` from its start to its send. -/
def SHWorkerSchedule (i : Nat) : List SHAction :=
  [.op i .lock, .op i .call, .op i .ret, .op i .unlock, .op i .crcRight, .op i .crcLeft,
    .op i .takeLeft, .op i .takeRight, .op i .send]

/-- A `MultiHash` worker that has sent, for examples. -/
def MHWorker.sentFor (P : Provider) (d : String) : MHWorker :=
  ⟨d, 6, List.replicate 6 .finished,
    (List.range 6).map (fun k => P.DataSignerCrc32 (Itoa (Int.ofNat k) ++ d)),
    some (MultiHashSpec P d)⟩

/-- A run of the pipeline on two items, one item after the other. -/
def demoRunInOrder : List PipeAction :=
  (SHSequential 0 2).map .single ++ (MHWorkerSchedule 0 [0, 1, 2, 3, 4, 5]).map .multi ++
    (MHWorkerSchedule 1 [0, 1, 2, 3, 4, 5]).map .multi ++ [.combine]

/-- A run of the pipeline on two items in which the second item overtakes the
first in both transform stages. -/
def demoRunOvertaking : List PipeAction :=
  ([SHAction.read, SHAction.read] ++ SHWorkerSchedule 1).map .single ++
    (MHWorkerSchedule 0 [5, 3, 1, 4, 2, 0]).map .multi ++
    (SHWorkerSchedule 0).map .single ++ (MHWorkerSchedule 1 [2, 0, 1, 5, 4, 3]).map .multi ++
    [.combine]

/-- Where `demoRunInOrder` ends on the items `1, 0`. -/
def demoEndInOrder (P : Provider) : PipeState :=
  ⟨⟨[], [⟨1, .done (SingleHashSpec P 1)⟩, ⟨0, .done (SingleHashSpec P 0)⟩], false⟩,
    ⟨[], [MHWorker.sentFor P (SingleHashSpec P 1), MHWorker.sentFor P (SingleHashSpec P 0)]⟩,
    [MultiHashSpec P (SingleHashSpec P 1), MultiHashSpec P (SingleHashSpec P 0)],
    [MultiHashSpec P (SingleHashSpec P 0) ++ "_" ++ MultiHashSpec P (SingleHashSpec P 1)]⟩

/-- Where `demoRunOvertaking` ends on the items `1, 0`. -/
def demoEndOvertaking (P : Provider) : PipeState :=
  ⟨⟨[], [⟨1, .done (SingleHashSpec P 1)⟩, ⟨0, .done (SingleHashSpec P 0)⟩], false⟩,
    ⟨[], [MHWorker.sentFor P (SingleHashSpec P 0), MHWorker.sentFor P (SingleHashSpec P 1)]⟩,
    [MultiHashSpec P (SingleHashSpec P 0), MultiHashSpec P (SingleHashSpec P 1)],
    [MultiHashSpec P (SingleHashSpec P 0) ++ "_" ++ MultiHashSpec P (SingleHashSpec P 1)]⟩

/-! ## `sortUsers` of the search server -/

/-- A user of the search server, with the fields that `parseUsersFromXML`
fills. -/
structure User where
  Id : Int
  Name : String
  Age : Int
  About : String
  Gender : String
  deriving DecidableEq

/-- The function `sortUsers` (lines 212-258). The constants `OrderByAsc` and
`OrderByDesc` are declared outside the file and are taken as parameters. The
outer `switch` selects the field, the inner one the comparison handed to
`sort.Slice`: `<` on the field under `case OrderByDesc`, `>` on the field under
`case OrderByAsc`; any other `orderField` or `orderBy` leaves the list as it
is. -/
def sortUsers (OrderByAsc OrderByDesc : Int) (users : List User) (orderBy : Int)
    (orderField : String) : List User :=
  if orderField = "Name" ∨ orderField = "" then
    if orderBy = OrderByDesc then sortSlice (fun a b => stringLess a.Name b.Name) users
    else if orderBy = OrderByAsc then sortSlice (fun a b => stringLess b.Name a.Name) users
    else users
  else if orderField = "Age" then
    if orderBy = OrderByDesc then sortSlice (fun a b => decide (a.Age < b.Age)) users
    else if orderBy = OrderByAsc then sortSlice (fun a b => decide (a.Age > b.Age)) users
    else users
  else if orderField = "Id" then
    if orderBy = OrderByDesc then sortSlice (fun a b => decide (a.Id < b.Id)) users
    else if orderBy = OrderByAsc then sortSlice (fun a b => decide (a.Id > b.Id)) users
    else users
  else users

/-- Two users for examples, the first the younger, with the smaller `Id` and
the smaller `Name`. -/
def demoUsers : List User := [⟨1, "Ann", 20, "", "female"⟩, ⟨2, "Bob", 30, "", "male"⟩]

/-! ## `SearchServer` -/

/-- The constant `accessTokenOK` of line 20. -/
def accessTokenOK : String := "qwerty"

/-- Go's `int` arithmetic on a 64-bit platform: the result wraps around. -/
def wrapInt (x : Int) : Int := (x + 9223372036854775808) % 18446744073709551616 - 9223372036854775808

/-- Whether a character is a decimal digit. -/
def isDecimalDigit (c : Char) : Bool := decide (48 ≤ c.toNat) && decide (c.toNat ≤ 57)

/-- The digits of `strconv.Atoi`: a non-empty run of decimal digits gives its
value, anything else is a syntax error. -/
def parseDigits (ds : List Char) : Option Nat :=
  if ds.isEmpty = false ∧ ds.all isDecimalDigit = true then some (readDecimal ds) else none

/-- Go's `strconv.Atoi`: an optional sign and decimal digits; `none` for the
error returned on malformed text and on a value outside the range of `int`. -/
def Atoi (s : String) : Option Int :=
  match s.data with
  | '-' :: ds =>
    match parseDigits ds with
    | some v => if v ≤ 9223372036854775808 then some (-(v : Int)) else none
    | none => none
  | '+' :: ds =>
    match parseDigits ds with
    | some v => if v < 9223372036854775808 then some (v : Int) else none
    | none => none
  | ds =>
    match parseDigits ds with
    | some v => if v < 9223372036854775808 then some (v : Int) else none
    | none => none

/-- Go's `strings.Contains` on the characters of the two strings. -/
def containsChars : List Char → List Char → Bool
  | [], sub => sub.isEmpty
  | c :: t, sub => sub.isPrefixOf (c :: t) || containsChars t sub

/-- Go's `strings.Contains`. -/
def Contains (s substr : String) : Bool := containsChars s.data substr.data

/-- The function `filterUsers` (lines 200-210): the users whose `Name` or
`About` contains `query`, in their order. The loop writes the kept users over
the front of the slice it reads, never past the position it reads. -/
def filterUsers (users : List User) (query : String) : List User :=
  users.filter (fun user => Contains user.Name query || Contains user.About query)

/-- What `SearchServer` reads of a request: the header `AccessToken` and the
form values, each empty when absent. -/
structure Request where
  AccessToken : String
  query : String
  order_field : String
  order_by : String
  limit : String
  offset : String
  deriving DecidableEq

/-- The body of a response: text, or the users handed to `json.Marshal`. -/
inductive Body where
  | text (s : String)
  | users (us : List User)
  deriving DecidableEq

/-- How a call of `SearchServer` ends: with a response of a status and a body,
or with the run-time panic of a slice expression whose bounds are out of
range, no response written. -/
inductive Outcome where
  | response (status : Nat) (body : Body)
  | panic
  deriving DecidableEq

/-- Go's slice expression `users[low:high]`: the run-time panic `none` unless
`0 <= low <= high <= cap(users)`. The capacity is at least the length, and
line 130 lets no `high` above the length reach the expression, so the upper
bound is checked against the length. -/
def sliceUsers (users : List User) (low high : Int) : Option (List User) :=
  if 0 ≤ low ∧ low ≤ high ∧ high ≤ (users.length : Int) then
    some ((users.drop low.toNat).take (high - low).toNat)
  else none

/-- The end of `SearchServer` (lines 130-151), `limit` and `offset` in hand:
the check of `limit+offset` against the length, the slice expression, and the
response with the users cut out. -/
def cutUsers (users : List User) (limit offset : Int) : Outcome :=
  if wrapInt (limit + offset) > (users.length : Int) then
    .response 400 (.text "\x7b\"error\": \"wrong 'offset' parameter\"\x7d")
  else
    match sliceUsers users offset (wrapInt (limit + offset)) with
    | none => .panic
    | some limitedResult => .response 200 (.users limitedResult)

/-- The handler `SearchServer` (lines 50-152). The constants `OrderByAsc`,
`OrderByDesc` and `OrderByAsIs` are declared outside the file and are
parameters; `data` is what `parseUsersFromXML(xmlDataPath)` returns, `none`
for its error. The sleep of the `__timeout` query is left out. -/
def SearchServer (OrderByAsc OrderByDesc OrderByAsIs : Int) (data : Option (List User))
    (r : Request) : Outcome :=
  if r.AccessToken ≠ accessTokenOK then
    .response 401 (.text "\x7b\"error\": \"wrong access token\"\x7d")
  else if r.query = "__internal_error" then
    .response 500 (.text "\x7b\"error\": \"internal server error\"\x7d")
  else if r.query = "__wrong_error_json" then
    .response 400 (.text "wrong error json")
  else if r.query = "__unknown_bad_request" then
    .response 400 (.text "\x7b\"error\": \"unknown bad request\"\x7d")
  else if r.query = "__timeout" then
    .response 408 (.text "\x7b\"error\": \"timeout\"\x7d")
  else if r.order_field ≠ "Name" ∧ r.order_field ≠ "Age" ∧ r.order_field ≠ "Id" ∧
      r.order_field ≠ "" then
    .response 400 (.text "\x7b\"error\": \"ErrorBadOrderField\"\x7d")
  else if r.query = "__cant_unpack_result_json" then
    .response 200 (.text "cant unpack result json")
  else
    match data with
    | none => .response 400 (.text "\x7b\"error\": \"data could not be read\"\x7d")
    | some users0 =>
      let users1 := if r.query ≠ "" then filterUsers users0 r.query else users0
      match Atoi r.order_by with
      | none =>
        .response 400
          (.text "\x7b\"error\": \"the parameter 'order_by' could not be read\"\x7d")
      | some orderBy =>
        let users :=
          if orderBy ≠ OrderByAsIs then
            sortUsers OrderByAsc OrderByDesc users1 orderBy r.order_field
          else users1
        match Atoi r.limit with
        | none =>
          .response 400
            (.text "\x7b\"error\": \"the parameter 'limit' could not be read\"\x7d")
        | some limit0 =>
          let limit :=
            if limit0 = 0 ∨ limit0 > (users.length : Int) then (users.length : Int) else limit0
          match Atoi r.offset with
          | none =>
            .response 400
              (.text "\x7b\"error\": \"the parameter 'offset' could not be read\"\x7d")
          | some offset => cutUsers users limit offset

/-- The request of `TestFindUsers_NegativeOffset`, as it reaches the handler
with the fields of the test written out: limit `0`, offset `-1`. -/
def negativeOffsetRequest : Request := ⟨"qwerty", "", "", "0", "0", "-1"⟩

/-- The request of `TestFindUsers_NegativeLimit`, as it reaches the handler
with the fields of the test written out: limit `-1`, offset `0`. -/
def negativeLimitRequest : Request := ⟨"qwerty", "", "", "0", "-1", "0"⟩

/-- A hash provider for examples, both of its functions injective, whose
unrestricted hash has a `~` in some of its values. -/
def clashProvider : Provider :=
  ⟨fun s =>
    if s = "1" then "x" else if s = "m1" then "~y" else if s = "2" then "x~"
    else if s = "m2" then "y" else "z" ++ s,
   fun s => "m" ++ s⟩

/-- A hash provider for examples: tags its argument. -/
def tagProvider : Provider := ⟨fun s => "c(" ++ s ++ ")", fun s => "m(" ++ s ++ ")"⟩

end Signer

namespace Signer

/-! ## The order on strings -/

theorem bytesLess_irrefl (a : List Char) : bytesLess a a = false := by
  induction a with
  | nil => rfl
  | cons c cs ih => simp [bytesLess, ih]

theorem bytesLess_asymm : ∀ a b : List Char, bytesLess a b = true → bytesLess b a = false
  | [], [], h => by simp [bytesLess] at h
  | [], _ :: _, _ => by simp [bytesLess]
  | _ :: _, [], h => by simp [bytesLess] at h
  | a :: as, b :: bs, h => by
    simp only [bytesLess] at h ⊢
    split_ifs at h ⊢
    all_goals first | rfl | omega | exact bytesLess_asymm as bs h

theorem bytesLess_trans : ∀ a b c : List Char,
    bytesLess a b = true → bytesLess b c = true → bytesLess a c = true
  | [], _, [], _, h2 => by cases ‹List Char› <;> simp [bytesLess] at h2
  | [], _, _ :: _, _, _ => by simp [bytesLess]
  | _ :: _, [], _, h1, _ => by simp [bytesLess] at h1
  | _ :: _, _ :: _, [], _, h2 => by simp [bytesLess] at h2
  | a :: as, b :: bs, c :: cs, h1, h2 => by
    simp only [bytesLess] at h1 h2 ⊢
    split_ifs at h1 h2 ⊢
    all_goals first | rfl | omega | exact bytesLess_trans as bs cs h1 h2

theorem bytesLess_connex : ∀ a b : List Char,
    bytesLess a b = false → bytesLess b a = false → a = b
  | [], [], _, _ => rfl
  | [], _ :: _, h, _ => by simp [bytesLess] at h
  | _ :: _, [], _, h => by simp [bytesLess] at h
  | a :: as, b :: bs, h1, h2 => by
    simp only [bytesLess] at h1 h2
    split_ifs at h1 h2
    have hab : a = b := by
      apply Char.ext
      apply UInt32.ext
      have : a.toNat = b.toNat := by omega
      exact this
    rw [hab, bytesLess_connex as bs h1 h2]

/-- Not being greater is transitive. -/
theorem bytesLess_le_trans (a b c : List Char)
    (h1 : bytesLess b a = false) (h2 : bytesLess c b = false) : bytesLess c a = false := by
  by_contra h
  have hca : bytesLess c a = true := by simpa using h
  by_cases hab : bytesLess a b = true
  · have := bytesLess_trans c a b hca hab
    simp [this] at h2
  · have hab' : bytesLess a b = false := by simpa using hab
    have := bytesLess_connex a b hab' h1
    subst this
    simp [hca] at h2

theorem stringLess_total (a b : String) : stringLess b a = false ∨ stringLess a b = false := by
  by_cases h : stringLess b a = true
  · right
    exact bytesLess_asymm _ _ h
  · left
    simpa using h

theorem stringLess_antisymm (a b : String)
    (h1 : stringLess b a = false) (h2 : stringLess a b = false) : a = b := by
  have := bytesLess_connex a.data b.data h2 h1
  exact String.ext this

/-! ## Sorting -/

theorem sortSlice_perm {α : Type} (less : α → α → Bool) (xs : List α) :
    (sortSlice less xs).Perm xs :=
  List.perm_insertionSort _ xs

theorem sortSlice_sorted {α : Type} (less : α → α → Bool)
    (htotal : ∀ a b, less b a = false ∨ less a b = false)
    (htrans : ∀ a b c, less b a = false → less c b = false → less c a = false)
    (xs : List α) : (sortSlice less xs).Pairwise (fun a b => less b a = false) := by
  haveI : IsTotal α (fun a b => less b a = false) := ⟨htotal⟩
  haveI : IsTrans α (fun a b => less b a = false) := ⟨htrans⟩
  exact List.sorted_insertionSort (fun a b => less b a = false) xs

theorem sortStrings_sorted (xs : List String) :
    (sortStrings xs).Pairwise (fun a b => stringLess b a = false) :=
  sortSlice_sorted stringLess stringLess_total
    (fun a b c => bytesLess_le_trans a.data b.data c.data) xs

/-- Two ascending lists of strings with the same elements are the same list. -/
theorem sorted_strings_unique (xs ys : List String) (hp : xs.Perm ys)
    (hx : xs.Pairwise (fun a b => stringLess b a = false))
    (hy : ys.Pairwise (fun a b => stringLess b a = false)) : xs = ys := by
  haveI : IsAntisymm String (fun a b => stringLess b a = false) :=
    ⟨fun a b h1 h2 => stringLess_antisymm a b h1 h2⟩
  exact List.eq_of_perm_of_sorted hp hx hy

theorem sortStrings_congr (xs ys : List String) (hp : xs.Perm ys) :
    sortStrings xs = sortStrings ys :=
  sorted_strings_unique _ _
    (((sortSlice_perm stringLess xs).trans hp).trans (sortSlice_perm stringLess ys).symm)
    (sortStrings_sorted xs) (sortStrings_sorted ys)

theorem foldl_append_singleton {α : Type} (acc xs : List α) :
    xs.foldl (fun results data => results ++ [data]) acc = acc ++ xs := by
  induction xs generalizing acc with
  | nil => simp
  | cons x xs ih => simp [ih]

theorem CombineResults_eq (input : List String) :
    CombineResults input = [Join (sortStrings input) "_"] := by
  simp [CombineResults, foldl_append_singleton]

/-! ## `CombineResults` -/

/-- C3: for every finite sequence of strings read from the input queue,
`CombineResults` writes exactly one item, the join with `_` of a list that
holds the same strings in ascending order; for the empty sequence the item is
the empty string. -/
theorem CombineResults_emits_sorted_join (input : List String) :
    (∃ sorted : List String,
      CombineResults input = [Join sorted "_"] ∧ sorted.Perm input ∧
      sorted.Pairwise (fun a b => stringLess b a = false) ∧
      ∀ other : List String, other.Perm input →
        other.Pairwise (fun a b => stringLess b a = false) → other = sorted) ∧
    CombineResults [] = [""] := by
  refine ⟨⟨sortStrings input, CombineResults_eq input, sortSlice_perm _ _,
    sortStrings_sorted input, ?_⟩, by decide⟩
  intro other hp hs
  exact sorted_strings_unique _ _ (hp.trans (sortSlice_perm stringLess input).symm) hs
    (sortStrings_sorted input)

/-- C5: two input sequences that are permutations of each other make
`CombineResults` write the same item. -/
theorem CombineResults_perm_invariant (xs ys : List String) (hp : xs.Perm ys) :
    CombineResults xs = CombineResults ys := by
  rw [CombineResults_eq, CombineResults_eq, sortStrings_congr xs ys hp]

theorem CombineResults_perm_invariant_witness :
    ["b", "a~1", "a"].Perm ["a", "b", "a~1"] ∧
      CombineResults ["b", "a~1", "a"] = CombineResults ["a", "b", "a~1"] ∧
      CombineResults ["b", "a~1", "a"] = ["a_a~1_b"] :=
  ⟨by decide, CombineResults_perm_invariant _ _ (by decide), by decide⟩

/-! ## Lists of workers -/

theorem list_set_split {α : Type} (l : List α) (i : Nat) (w w' : α) (h : l[i]? = some w) :
    ∃ pre post, l = pre ++ w :: post ∧ l.set i w' = pre ++ w' :: post ∧ pre.length = i := by
  induction l generalizing i with
  | nil => simp at h
  | cons x xs ih =>
    cases i with
    | zero =>
      simp at h
      exact ⟨[], xs, by simp [h], by simp, rfl⟩
    | succ j =>
      simp at h
      obtain ⟨pre, post, h1, h2, h3⟩ := ih j h
      refine ⟨x :: pre, post, by simp [← h1], by simp [h2], by simp [h3]⟩

/-! ## `SingleHash`: the moves of one worker -/

theorem SHWorkerStep_move (P : Provider) (mu : Bool) (w w' : SHWorker) (o : SHOp) (mu' : Bool)
    (e : Option String) (h : SHWorkerStep P mu w o = some (w', mu', e)) :
    SHMove P mu w o w' mu' e := by
  obtain ⟨n, pc⟩ := w
  cases o <;> cases pc <;> simp only [SHWorkerStep] at h <;>
    (try split at h) <;> (try (simp at h; done)) <;>
    (simp only [Option.some.injEq, Prod.mk.injEq] at h; obtain ⟨rfl, rfl, rfl⟩ := h) <;>
    (try simp_all) <;> constructor

theorem SHMove_step (P : Provider) (mu : Bool) (w w' : SHWorker) (o : SHOp) (mu' : Bool)
    (e : Option String) (h : SHMove P mu w o w' mu' e) :
    SHWorkerStep P mu w o = some (w', mu', e) := by
  cases h <;> simp [SHWorkerStep]

theorem SHMove_ok (P : Provider) (mu : Bool) (w w' : SHWorker) (o : SHOp) (mu' : Bool)
    (e : Option String) (h : SHMove P mu w o w' mu' e) (hw : w.ok P) :
    w'.ok P ∧ w'.data = w.data := by
  cases h <;> simp only [SHWorker.ok, SingleHashSpec] at hw ⊢ <;> aesop

theorem SHMove_emit (P : Provider) (mu : Bool) (w w' : SHWorker) (o : SHOp) (mu' : Bool)
    (r : String) (h : SHMove P mu w o w' mu' (some r)) (hw : w.ok P) :
    r = SingleHashSpec P w.data ∧ w.isDone = false ∧ w'.isDone = true ∧ w'.pc = .done r := by
  cases h
  simp only [SHWorker.ok] at hw
  simp [hw, SHWorker.isDone]

theorem SHMove_silent (P : Provider) (mu : Bool) (w w' : SHWorker) (o : SHOp) (mu' : Bool)
    (h : SHMove P mu w o w' mu' none) : w.isDone = false ∧ w'.isDone = false := by
  cases h <;> simp [SHWorker.isDone]

theorem SHMove_lock (P : Provider) (mu : Bool) (w w' : SHWorker) (o : SHOp) (mu' : Bool)
    (e : Option String) (h : SHMove P mu w o w' mu' e) (hmu : w.holdsLock = true → mu = true) :
    (if w'.holdsLock = true then 1 else 0) + (if mu = true then 1 else 0) =
      (if w.holdsLock = true then 1 else 0) + (if mu' = true then 1 else 0) := by
  cases h <;> simp_all [SHWorker.holdsLock]

theorem SHMove_rank (P : Provider) (mu : Bool) (w w' : SHWorker) (o : SHOp) (mu' : Bool)
    (e : Option String) (h : SHMove P mu w o w' mu' e) : SHRank w'.pc < SHRank w.pc := by
  cases h <;> simp [SHRank]

/-! ## `SingleHash`: the steps of the stage -/

/-- A step is the start of a worker or a move of a started one. -/
theorem SHStep_cases (P : Provider) (s s' : SHState) (a : SHAction) (e : Option String)
    (h : SHStep P s a = some (s', e)) :
    (∃ n rest, a = .read ∧ s.input = n :: rest ∧ e = none ∧
      s' = ⟨rest, s.workers ++ [⟨n, .atLock⟩], s.mu⟩) ∨
    (∃ i o w w' mu' pre post, a = .op i o ∧ SHMove P s.mu w o w' mu' e ∧
      s.workers = pre ++ w :: post ∧ pre.length = i ∧
      s' = ⟨s.input, pre ++ w' :: post, mu'⟩) := by
  cases a with
  | read =>
    left
    simp only [SHStep] at h
    split at h
    · simp at h
    · rename_i n rest hin
      simp only [Option.some.injEq, Prod.mk.injEq] at h
      exact ⟨n, rest, rfl, hin, h.2.symm, h.1.symm⟩
  | op i o =>
    right
    simp only [SHStep] at h
    split at h
    · simp at h
    · rename_i w hw
      split at h
      · simp at h
      · rename_i w' mu' e' hstep
        simp only [Option.some.injEq, Prod.mk.injEq] at h
        obtain ⟨pre, post, h1, h2, h3⟩ := list_set_split s.workers i w w' hw
        refine ⟨i, o, w, w', mu', pre, post, rfl, ?_, h1, h3, ?_⟩
        · rw [← h.2]
          exact SHWorkerStep_move P s.mu w w' o mu' e' hstep
        · rw [← h.1, h2]

theorem SHStep_ok (P : Provider) (s s' : SHState) (a : SHAction) (e : Option String)
    (h : SHStep P s a = some (s', e)) (hs : s.ok P) : s'.ok P := by
  obtain ⟨hw, hc⟩ := hs
  rcases SHStep_cases P s s' a e h with ⟨n, rest, -, -, -, rfl⟩ |
    ⟨i, o, w, w', mu', pre, post, -, hm, hws, -, rfl⟩
  · refine ⟨?_, ?_⟩
    · intro w hmem
      simp only [List.mem_append, List.mem_singleton] at hmem
      rcases hmem with hmem | rfl
      · exact hw w hmem
      · simp [SHWorker.ok]
    · simp [List.countP_append, List.countP_cons, SHWorker.holdsLock, hc]
  · rw [hws] at hw hc
    simp only [List.countP_append, List.countP_cons] at hc
    have hwok : w.ok P := hw w (by simp)
    have hmu : w.holdsLock = true → s.mu = true := by
      intro hh
      by_contra hne
      simp [hh, hne] at hc
    have hl := SHMove_lock P s.mu w w' o mu' e hm hmu
    refine ⟨?_, ?_⟩
    · intro x hmem
      simp only [List.mem_append, List.mem_cons] at hmem
      rcases hmem with hmem | rfl | hmem
      · exact hw x (by simp [hmem])
      · exact (SHMove_ok P s.mu w x o mu' e hm hwok).1
      · exact hw x (by simp [hmem])
    · simp only [List.countP_append, List.countP_cons]
      omega

theorem SHStep_pending {β : Type} (P : Provider) (h : String → β) (s s' : SHState)
    (a : SHAction) (e : Option String) (hstep : SHStep P s a = some (s', e)) (hs : s.ok P) :
    (SHPending P h s).Perm (e.toList.map h ++ SHPending P h s') := by
  rcases SHStep_cases P s s' a e hstep with ⟨n, rest, -, hin, rfl, rfl⟩ |
    ⟨i, o, w, w', mu', pre, post, -, hm, hws, -, rfl⟩
  · simp [SHPending, hin, SHOwed, SHWorker.isDone]
  · have hwok : w.ok P := hs.1 w (by simp [hws])
    have hdata := (SHMove_ok P s.mu w w' o mu' e hm hwok).2
    cases e with
    | none =>
      obtain ⟨h1, h2⟩ := SHMove_silent P s.mu w w' o mu' hm
      simp [SHPending, hws, SHOwed, h1, h2, hdata]
    | some r =>
      obtain ⟨h1, h2, h3, -⟩ := SHMove_emit P s.mu w w' o mu' r hm hwok
      simp only [SHPending, hws, SHOwed, h2, h3, List.flatMap_append, List.flatMap_cons,
        Option.toList, List.map_cons, List.map_nil, ← h1]
      simp only [Bool.false_eq_true, if_false, if_true, List.nil_append, List.singleton_append,
        List.append_assoc, List.cons_append]
      exact List.perm_middle

theorem SHStep_measure (P : Provider) (c : Nat) (s s' : SHState) (a : SHAction)
    (e : Option String) (hstep : SHStep P s a = some (s', e)) :
    SHMeasure c s' + 1 + (if e.isSome then c else 0) ≤ SHMeasure c s := by
  rcases SHStep_cases P s s' a e hstep with ⟨n, rest, -, hin, rfl, rfl⟩ |
    ⟨i, o, w, w', mu', pre, post, -, hm, hws, -, rfl⟩
  · have hw : SHWorker.weight c ⟨n, .atLock⟩ = 9 + c := by
      simp [SHWorker.weight, SHRank, SHWorker.isDone]
    have hmul : (rest.length + 1) * (10 + c) = rest.length * (10 + c) + (10 + c) := by ring
    simp only [SHMeasure, hin, List.map_append, List.sum_append, List.length_cons,
      List.map_cons, List.map_nil, List.sum_cons, List.sum_nil, hw, hmul, Option.isSome_none]
    simp
    omega
  · have hr := SHMove_rank P s.mu w w' o mu' e hm
    simp only [SHMeasure, hws, List.map_append, List.sum_append, List.map_cons, List.sum_cons,
      SHWorker.weight]
    cases e with
    | none =>
      obtain ⟨h1, h2⟩ := SHMove_silent P s.mu w w' o mu' hm
      simp [h1, h2]
      omega
    | some r =>
      have hd : w.isDone = false ∧ w'.isDone = true := by
        generalize s.mu = m at hm
        cases hm
        simp [SHWorker.isDone]
      simp [hd.1, hd.2]
      omega

/-- Every run keeps the invariant, keeps the items written and still to be
delivered together, and is bounded in length by the measure. -/
theorem SHRun_inv {β : Type} (P : Provider) (h : String → β) (c : Nat) (acts : List SHAction) :
    ∀ (s s' : SHState) (out out' : List String),
      SHRun P acts (s, out) = some (s', out') → s.ok P →
      s'.ok P ∧ (out.map h ++ SHPending P h s).Perm (out'.map h ++ SHPending P h s') ∧
        acts.length + SHMeasure c s' ≤ SHMeasure c s := by
  induction acts with
  | nil =>
    intro s s' out out' hrun hs
    simp only [SHRun, Option.some.injEq, Prod.mk.injEq] at hrun
    obtain ⟨rfl, rfl⟩ := hrun
    exact ⟨hs, List.Perm.refl _, by simp⟩
  | cons a as ih =>
    intro s s' out out' hrun hs
    simp only [SHRun] at hrun
    split at hrun
    · simp at hrun
    · rename_i s1 e hstep
      have hs1 := SHStep_ok P s s1 a e hstep hs
      obtain ⟨h1, h2, h3⟩ := ih s1 s' (out ++ e.toList) out' hrun hs1
      refine ⟨h1, ?_, ?_⟩
      · refine List.Perm.trans ?_ h2
        have hp := SHStep_pending P h s s1 a e hstep hs
        rw [List.map_append, List.append_assoc]
        exact List.Perm.append_left _ hp
      · have hm := SHStep_measure P c s s1 a e hstep
        simp only [List.length_cons]
        omega

theorem SHInit_ok (P : Provider) (inputs : List Int) : (SHInit inputs).ok P := by
  simp [SHInit, SHState.ok]

theorem SHWorkerStep_next (P : Provider) (mu : Bool) (w : SHWorker) (hnd : w.isDone = false)
    (hl : w.pc = .atLock → mu = false) :
    ∃ r, SHWorkerStep P mu w (SHNextOp w.pc) = some r := by
  obtain ⟨n, pc⟩ := w
  cases pc with
  | atLock => simp [SHNextOp, SHWorkerStep, hl]
  | atCall => simp [SHNextOp, SHWorkerStep]
  | inMd5 => simp [SHNextOp, SHWorkerStep]
  | atUnlock m => simp [SHNextOp, SHWorkerStep]
  | recvLeft m c1 c2 => cases c1 <;> simp [SHNextOp, SHWorkerStep]
  | recvRight l m c2 => cases c2 <;> simp [SHNextOp, SHWorkerStep]
  | sendOut r => simp [SHNextOp, SHWorkerStep]
  | done r => simp [SHWorker.isDone] at hnd

theorem SHStep_of_worker (P : Provider) (s : SHState) (i : Nat) (w : SHWorker) (o : SHOp)
    (hget : s.workers[i]? = some w) (r : SHWorker × Bool × Option String)
    (hstep : SHWorkerStep P s.mu w o = some r) : ∃ s' e, SHStep P s (.op i o) = some (s', e) := by
  obtain ⟨w', mu', e⟩ := r
  exact ⟨{ s with workers := s.workers.set i w', mu := mu' }, e, by simp [SHStep, hget, hstep]⟩

/-- A stage that has not returned can take a step: no deadlock. -/
theorem SHStep_progress (P : Provider) (s : SHState) (hs : s.ok P) (hf : s.finished = false) :
    ∃ a s' e, SHStep P s a = some (s', e) := by
  cases hin : s.input with
  | cons n rest =>
    exact ⟨.read, { s with input := rest, workers := s.workers ++ [⟨n, .atLock⟩] }, none,
      by simp [SHStep, hin]⟩
  | nil =>
    have hall : s.workers.all SHWorker.isDone = false := by
      simpa [SHState.finished, hin] using hf
    have hex : ∃ w ∈ s.workers, w.isDone = false := by
      by_contra hcon
      push_neg at hcon
      have : s.workers.all SHWorker.isDone = true := by
        rw [List.all_eq_true]
        intro x hx
        simpa using hcon x hx
      simp [this] at hall
    obtain ⟨w, hmem, hnd⟩ := hex
    by_cases hblocked : w.pc = .atLock ∧ s.mu = true
    · have hc : 0 < s.workers.countP SHWorker.holdsLock := by
        rw [hs.2, hblocked.2]
        simp
      obtain ⟨w2, hmem2, hh⟩ := List.countP_pos_iff.mp hc
      obtain ⟨j, hj⟩ := List.mem_iff_getElem?.mp hmem2
      have hnd2 : w2.isDone = false := by
        obtain ⟨n, pc⟩ := w2
        cases pc <;> simp_all [SHWorker.holdsLock, SHWorker.isDone]
      have hl2 : w2.pc = .atLock → s.mu = false := by
        intro hpc
        obtain ⟨n, pc⟩ := w2
        simp only at hpc
        subst hpc
        simp [SHWorker.holdsLock] at hh
      obtain ⟨r, hr⟩ := SHWorkerStep_next P s.mu w2 hnd2 hl2
      obtain ⟨s', e, hstep⟩ := SHStep_of_worker P s j w2 _ hj r hr
      exact ⟨_, s', e, hstep⟩
    · obtain ⟨i, hi⟩ := List.mem_iff_getElem?.mp hmem
      have hl : w.pc = .atLock → s.mu = false := by
        intro hpc
        by_contra hne
        exact hblocked ⟨hpc, by simpa using hne⟩
      obtain ⟨r, hr⟩ := SHWorkerStep_next P s.mu w hnd hl
      obtain ⟨s', e, hstep⟩ := SHStep_of_worker P s i w _ hi r hr
      exact ⟨_, s', e, hstep⟩

/-- From every state of the stage some run leads to its return. -/
theorem SHRun_completes (P : Provider) : ∀ (m : Nat) (s : SHState) (out : List String),
    s.ok P → SHMeasure 0 s ≤ m →
    ∃ acts s' out', SHRun P acts (s, out) = some (s', out') ∧ s'.finished = true := by
  intro m
  induction m with
  | zero =>
    intro s out hs hm
    by_cases hf : s.finished = true
    · exact ⟨[], s, out, rfl, hf⟩
    · obtain ⟨a, s1, e, hstep⟩ := SHStep_progress P s hs (by simpa using hf)
      have := SHStep_measure P 0 s s1 a e hstep
      omega
  | succ m ih =>
    intro s out hs hm
    by_cases hf : s.finished = true
    · exact ⟨[], s, out, rfl, hf⟩
    · obtain ⟨a, s1, e, hstep⟩ := SHStep_progress P s hs (by simpa using hf)
      have hdec := SHStep_measure P 0 s s1 a e hstep
      obtain ⟨acts, s', out', hrun, hfin⟩ :=
        ih s1 (out ++ e.toList) (SHStep_ok P s s1 a e hstep hs) (by omega)
      exact ⟨a :: acts, s', out', by simp [SHRun, hstep, hrun], hfin⟩

theorem SHPending_finished {β : Type} (P : Provider) (h : String → β) (s : SHState)
    (hf : s.finished = true) : SHPending P h s = [] := by
  simp only [SHState.finished, Bool.and_eq_true, List.isEmpty_iff, List.all_eq_true] at hf
  simp only [SHPending, hf.1, List.map_nil, List.append_nil, List.flatMap_eq_nil_iff]
  intro w hw
  simp [SHOwed, hf.2 w hw]

/-! ## `MultiHash`: the moves of one worker -/

/-- A move of a `MultiHash` worker is the start of a sub-task, the hashing or
the store of one, or the send. -/
theorem MHWorkerStep_cases (P : Provider) (w w' : MHWorker) (o : MHOp) (e : Option String)
    (h : MHWorkerStep P w o = some (w', e)) :
    (o = .spawn ∧ w.th < 6 ∧ e = none ∧
      w' = { w with th := w.th + 1, subs := w.subs ++ [.hashing] }) ∨
    (∃ k, o = .hash k ∧ w.subs[k]? = some .hashing ∧ e = none ∧
      w' = { w with
        subs := w.subs.set k (.ready (P.DataSignerCrc32 (Itoa (Int.ofNat k) ++ w.data))) }) ∨
    (∃ k res, o = .store k ∧ w.subs[k]? = some (.ready res) ∧ e = none ∧
      w' = { w with subs := w.subs.set k .finished, mhData := w.mhData.set k res }) ∨
    (o = .send ∧ w.th = 6 ∧ w.subs.all MHSub.isFinished = true ∧ w.sent = none ∧
      e = some (Join w.mhData "") ∧ w' = { w with sent := some (Join w.mhData "") }) := by
  cases o with
  | spawn =>
    simp only [MHWorkerStep] at h
    split at h
    · rename_i hlt
      simp only [Option.some.injEq, Prod.mk.injEq] at h
      exact Or.inl ⟨rfl, hlt, h.2.symm, h.1.symm⟩
    · simp at h
  | hash k =>
    simp only [MHWorkerStep] at h
    split at h
    · rename_i hk
      simp only [Option.some.injEq, Prod.mk.injEq] at h
      exact Or.inr (Or.inl ⟨k, rfl, hk, h.2.symm, h.1.symm⟩)
    · simp at h
  | store k =>
    simp only [MHWorkerStep] at h
    split at h
    · rename_i res hk
      simp only [Option.some.injEq, Prod.mk.injEq] at h
      exact Or.inr (Or.inr (Or.inl ⟨k, res, rfl, hk, h.2.symm, h.1.symm⟩))
    · simp at h
  | send =>
    simp only [MHWorkerStep] at h
    split at h
    · rename_i hc
      simp only [Option.some.injEq, Prod.mk.injEq] at h
      exact Or.inr (Or.inr (Or.inr ⟨rfl, hc.1, hc.2.1, hc.2.2, h.2.symm, h.1.symm⟩))
    · simp at h

/-- Six slots that hold the six salted hashes are these hashes in the order of
the salts. -/
theorem slots_eq (P : Provider) (data : String) (mhData : List String)
    (hlen : mhData.length = 6)
    (hslot : ∀ k, k < 6 →
      mhData[k]? = some (P.DataSignerCrc32 (Itoa (Int.ofNat k) ++ data))) :
    mhData = [P.DataSignerCrc32 ("0" ++ data), P.DataSignerCrc32 ("1" ++ data),
      P.DataSignerCrc32 ("2" ++ data), P.DataSignerCrc32 ("3" ++ data),
      P.DataSignerCrc32 ("4" ++ data), P.DataSignerCrc32 ("5" ++ data)] := by
  match mhData, hlen with
  | [a0, a1, a2, a3, a4, a5], _ =>
    have h0 := hslot 0 (by omega)
    have h1 := hslot 1 (by omega)
    have h2 := hslot 2 (by omega)
    have h3 := hslot 3 (by omega)
    have h4 := hslot 4 (by omega)
    have h5 := hslot 5 (by omega)
    simp only [List.getElem?_cons_zero, List.getElem?_cons_succ, Option.some.injEq] at h0 h1 h2 h3 h4 h5
    subst h0 h1 h2 h3 h4 h5
    have e0 : Itoa (Int.ofNat 0) = "0" := by decide
    have e1 : Itoa (Int.ofNat 1) = "1" := by decide
    have e2 : Itoa (Int.ofNat 2) = "2" := by decide
    have e3 : Itoa (Int.ofNat 3) = "3" := by decide
    have e4 : Itoa (Int.ofNat 4) = "4" := by decide
    have e5 : Itoa (Int.ofNat 5) = "5" := by decide
    rw [e0, e1, e2, e3, e4, e5]

/-- Six slots that hold the six salted hashes join to the string the
specification asks for. -/
theorem Join_slots (P : Provider) (data : String) (mhData : List String)
    (hlen : mhData.length = 6)
    (hslot : ∀ k, k < 6 →
      mhData[k]? = some (P.DataSignerCrc32 (Itoa (Int.ofNat k) ++ data))) :
    Join mhData "" = MultiHashSpec P data := by
  rw [slots_eq P data mhData hlen hslot]
  simp only [Join, List.foldl_cons, List.foldl_nil, String.append_empty, MultiHashSpec]

theorem MHSub_finished_of_all (subs : List MHSub) (hall : subs.all MHSub.isFinished = true)
    (k : Nat) (hk : k < subs.length) : subs[k]? = some .finished := by
  rw [List.all_eq_true] at hall
  have hmem : subs[k] ∈ subs := List.getElem_mem hk
  have hfin := hall _ hmem
  rw [List.getElem?_eq_getElem hk]
  cases hsub : subs[k] with
  | hashing => simp [hsub, MHSub.isFinished] at hfin
  | ready r => simp [hsub, MHSub.isFinished] at hfin
  | finished => rfl

theorem MHWorkerStep_ok (P : Provider) (w w' : MHWorker) (o : MHOp) (e : Option String)
    (h : MHWorkerStep P w o = some (w', e)) (hw : w.ok P) : w'.ok P ∧ w'.data = w.data := by
  obtain ⟨hlen, hth, hdata, hready, hfin, hsent⟩ := hw
  rcases MHWorkerStep_cases P w w' o e h with ⟨-, hlt, -, rfl⟩ | ⟨k0, -, hk0, -, rfl⟩ |
    ⟨k0, res, -, hk0, -, rfl⟩ | ⟨-, h6, hall, hnone, -, rfl⟩
  · refine ⟨⟨by simp [hlen], by simp; omega, hdata, ?_, ?_, hsent⟩, rfl⟩
    · intro k r hk
      simp only at hk
      by_cases hlt' : k < w.subs.length
      · rw [List.getElem?_append_left hlt'] at hk
        exact hready k r hk
      · rw [List.getElem?_append_right (by omega)] at hk
        cases hkk : k - w.subs.length with
        | zero => simp [hkk] at hk
        | succ j => simp [hkk] at hk
    · intro k hk
      simp only at hk
      by_cases hlt' : k < w.subs.length
      · rw [List.getElem?_append_left hlt'] at hk
        exact hfin k hk
      · rw [List.getElem?_append_right (by omega)] at hk
        cases hkk : k - w.subs.length with
        | zero => simp [hkk] at hk
        | succ j => simp [hkk] at hk
  · refine ⟨⟨by simp [hlen], hth, hdata, ?_, ?_, hsent⟩, rfl⟩
    · intro k r hk
      simp only [List.getElem?_set] at hk
      split_ifs at hk with h1 h2
      · simp only [Option.some.injEq, MHSub.ready.injEq] at hk
        rw [← hk, h1]
      · exact hready k r hk
    · intro k hk
      simp only [List.getElem?_set] at hk
      split_ifs at hk with h1 h2
      · simp at hk
      · exact hfin k hk
  · have hres := hready k0 res hk0
    have hk0lt : k0 < w.subs.length := by
      obtain ⟨hlt, -⟩ := List.getElem?_eq_some.mp hk0
      exact hlt
    refine ⟨⟨by simp [hlen], hth, by simp [hdata], ?_, ?_, hsent⟩, rfl⟩
    · intro k r hk
      simp only [List.getElem?_set] at hk
      split_ifs at hk with h1
      · simp at hk
      · exact hready k r hk
    · intro k hk
      simp only [List.getElem?_set] at hk ⊢
      split_ifs at hk ⊢ with h1 h2
      · rw [hres, h1]
      · omega
      · exact hfin k hk
  · refine ⟨⟨hlen, hth, hdata, hready, hfin, ?_⟩, rfl⟩
    intro r hr
    simp only [Option.some.injEq] at hr
    rw [← hr]
    apply Join_slots P w.data w.mhData hdata
    intro k hk
    exact hfin k (MHSub_finished_of_all w.subs hall k (by omega))

theorem MHWorkerStep_emit (P : Provider) (w w' : MHWorker) (o : MHOp) (e : Option String)
    (h : MHWorkerStep P w o = some (w', e)) (hw : w.ok P) :
    (∀ r, e = some r → r = MultiHashSpec P w.data ∧ w.isDone = false ∧ w'.isDone = true) ∧
      (e = none → w'.isDone = w.isDone) := by
  have hok' := (MHWorkerStep_ok P w w' o e h hw).1
  rcases MHWorkerStep_cases P w w' o e h with ⟨-, hlt, rfl, rfl⟩ | ⟨k0, -, hk0, rfl, rfl⟩ |
    ⟨k0, res, -, hk0, rfl, rfl⟩ | ⟨-, h6, hall, hnone, rfl, rfl⟩
  · simp [MHWorker.isDone]
  · simp [MHWorker.isDone]
  · simp [MHWorker.isDone]
  · refine ⟨?_, by simp⟩
    intro r hr
    simp only [Option.some.injEq] at hr
    refine ⟨?_, by simp [MHWorker.isDone, hnone], by simp [MHWorker.isDone]⟩
    rw [← hr]
    exact hok'.2.2.2.2.2 _ rfl

theorem MHWorkerStep_weight (P : Provider) (c : Nat) (w w' : MHWorker) (o : MHOp)
    (e : Option String) (h : MHWorkerStep P w o = some (w', e)) :
    MHWorker.weight c w' + 1 + (if e.isSome then c else 0) ≤ MHWorker.weight c w := by
  rcases MHWorkerStep_cases P w w' o e h with ⟨-, hlt, rfl, rfl⟩ | ⟨k0, -, hk0, rfl, rfl⟩ |
    ⟨k0, res, -, hk0, rfl, rfl⟩ | ⟨-, h6, hall, hnone, rfl, rfl⟩
  · simp only [MHWorker.weight, MHWorker.isDone, List.map_append, List.sum_append, List.map_cons,
      List.map_nil, List.sum_cons, List.sum_nil, MHSubRank, Option.isSome_none]
    simp
    omega
  · obtain ⟨pre, post, h1, h2, -⟩ := list_set_split w.subs k0 _
      (.ready (P.DataSignerCrc32 (Itoa (Int.ofNat k0) ++ w.data))) hk0
    simp only [MHWorker.weight, MHWorker.isDone, h2]
    rw [h1]
    simp only [List.map_append, List.sum_append, List.map_cons, List.sum_cons, MHSubRank,
      Option.isSome_none]
    simp
    omega
  · obtain ⟨pre, post, h1, h2, -⟩ := list_set_split w.subs k0 _ .finished hk0
    simp only [MHWorker.weight, MHWorker.isDone, h2]
    rw [h1]
    simp only [List.map_append, List.sum_append, List.map_cons, List.sum_cons, MHSubRank,
      Option.isSome_none]
    simp
    omega
  · simp only [MHWorker.weight, MHWorker.isDone, hnone]
    simp
    omega

/-! ## `MultiHash`: the steps of the stage -/

theorem MHWorker_start_ok (P : Provider) (d : String) : (MHWorker.start d).ok P := by
  simp [MHWorker.ok, MHWorker.start]

/-- A step is the start of a worker or a move of a started one. -/
theorem MHStep_cases (P : Provider) (s s' : MHState) (a : MHAction) (e : Option String)
    (h : MHStep P s a = some (s', e)) :
    (∃ d rest, a = .read ∧ s.input = d :: rest ∧ e = none ∧
      s' = ⟨rest, s.workers ++ [MHWorker.start d]⟩) ∨
    (∃ i o w w' pre post, a = .op i o ∧ MHWorkerStep P w o = some (w', e) ∧
      s.workers = pre ++ w :: post ∧ pre.length = i ∧ s' = ⟨s.input, pre ++ w' :: post⟩) := by
  cases a with
  | read =>
    left
    simp only [MHStep] at h
    split at h
    · simp at h
    · rename_i d rest hin
      simp only [Option.some.injEq, Prod.mk.injEq] at h
      exact ⟨d, rest, rfl, hin, h.2.symm, h.1.symm⟩
  | op i o =>
    right
    simp only [MHStep] at h
    split at h
    · simp at h
    · rename_i w hw
      split at h
      · simp at h
      · rename_i w' e' hstep
        simp only [Option.some.injEq, Prod.mk.injEq] at h
        obtain ⟨pre, post, h1, h2, h3⟩ := list_set_split s.workers i w w' hw
        refine ⟨i, o, w, w', pre, post, rfl, ?_, h1, h3, ?_⟩
        · rw [← h.2]
          exact hstep
        · rw [← h.1, h2]

theorem MHStep_ok (P : Provider) (s s' : MHState) (a : MHAction) (e : Option String)
    (h : MHStep P s a = some (s', e)) (hs : s.ok P) : s'.ok P := by
  rcases MHStep_cases P s s' a e h with ⟨d, rest, -, -, -, rfl⟩ |
    ⟨i, o, w, w', pre, post, -, hm, hws, -, rfl⟩
  · intro w hmem
    simp only [List.mem_append, List.mem_singleton] at hmem
    rcases hmem with hmem | rfl
    · exact hs w hmem
    · exact MHWorker_start_ok P d
  · intro x hmem
    simp only [List.mem_append, List.mem_cons] at hmem
    have hwok : w.ok P := hs w (by simp [hws])
    rcases hmem with hmem | rfl | hmem
    · exact hs x (by simp [hws, hmem])
    · exact (MHWorkerStep_ok P w x o e hm hwok).1
    · exact hs x (by simp [hws, hmem])

theorem MHStep_pending {β : Type} (P : Provider) (h : String → β) (s s' : MHState)
    (a : MHAction) (e : Option String) (hstep : MHStep P s a = some (s', e)) (hs : s.ok P) :
    (MHPending P h s).Perm (e.toList.map h ++ MHPending P h s') := by
  rcases MHStep_cases P s s' a e hstep with ⟨d, rest, -, hin, rfl, rfl⟩ |
    ⟨i, o, w, w', pre, post, -, hm, hws, -, rfl⟩
  · simp [MHPending, hin, MHOwed, MHWorker.isDone, MHWorker.start]
  · have hwok : w.ok P := hs w (by simp [hws])
    have hdata := (MHWorkerStep_ok P w w' o e hm hwok).2
    obtain ⟨hsome, hnone⟩ := MHWorkerStep_emit P w w' o e hm hwok
    cases e with
    | none =>
      have hd := hnone rfl
      simp [MHPending, hws, MHOwed, hd, hdata]
    | some r =>
      obtain ⟨h1, h2, h3⟩ := hsome r rfl
      simp only [MHPending, hws, MHOwed, h2, h3, List.flatMap_append, List.flatMap_cons,
        Option.toList, List.map_cons, List.map_nil, ← h1]
      simp only [Bool.false_eq_true, if_false, if_true, List.nil_append, List.singleton_append,
        List.append_assoc, List.cons_append]
      exact List.perm_middle

theorem MHStep_measure (P : Provider) (c : Nat) (s s' : MHState) (a : MHAction)
    (e : Option String) (hstep : MHStep P s a = some (s', e)) :
    MHMeasure c s' + 1 + (if e.isSome then c else 0) ≤ MHMeasure c s := by
  rcases MHStep_cases P s s' a e hstep with ⟨d, rest, -, hin, rfl, rfl⟩ |
    ⟨i, o, w, w', pre, post, -, hm, hws, -, rfl⟩
  · have hw : MHWorker.weight c (MHWorker.start d) = 19 + c := by
      simp [MHWorker.weight, MHWorker.start, MHWorker.isDone]
      omega
    have hmul : (rest.length + 1) * (20 + c) = rest.length * (20 + c) + (20 + c) := by ring
    simp only [MHMeasure, hin, List.map_append, List.sum_append, List.length_cons,
      List.map_cons, List.map_nil, List.sum_cons, List.sum_nil, hw, hmul, Option.isSome_none]
    simp
    omega
  · have hr := MHWorkerStep_weight P c w w' o e hm
    simp only [MHMeasure, hws, List.map_append, List.sum_append, List.map_cons, List.sum_cons]
    omega

/-- Every run keeps the invariant, keeps the items written and still to be
delivered together, and is bounded in length by the measure. -/
theorem MHRun_inv {β : Type} (P : Provider) (h : String → β) (c : Nat) (acts : List MHAction) :
    ∀ (s s' : MHState) (out out' : List String),
      MHRun P acts (s, out) = some (s', out') → s.ok P →
      s'.ok P ∧ (out.map h ++ MHPending P h s).Perm (out'.map h ++ MHPending P h s') ∧
        acts.length + MHMeasure c s' ≤ MHMeasure c s := by
  induction acts with
  | nil =>
    intro s s' out out' hrun hs
    simp only [MHRun, Option.some.injEq, Prod.mk.injEq] at hrun
    obtain ⟨rfl, rfl⟩ := hrun
    exact ⟨hs, List.Perm.refl _, by simp⟩
  | cons a as ih =>
    intro s s' out out' hrun hs
    simp only [MHRun] at hrun
    split at hrun
    · simp at hrun
    · rename_i s1 e hstep
      have hs1 := MHStep_ok P s s1 a e hstep hs
      obtain ⟨h1, h2, h3⟩ := ih s1 s' (out ++ e.toList) out' hrun hs1
      refine ⟨h1, ?_, ?_⟩
      · refine List.Perm.trans ?_ h2
        have hp := MHStep_pending P h s s1 a e hstep hs
        rw [List.map_append, List.append_assoc]
        exact List.Perm.append_left _ hp
      · have hm := MHStep_measure P c s s1 a e hstep
        simp only [List.length_cons]
        omega

theorem MHInit_ok (P : Provider) (inputs : List String) : (MHInit inputs).ok P := by
  simp [MHInit, MHState.ok]

theorem MHWorkerStep_next (P : Provider) (w : MHWorker) (hw : w.ok P)
    (hnd : w.isDone = false) : ∃ o r, MHWorkerStep P w o = some r := by
  by_cases hlt : w.th < 6
  · have hsome : (MHWorkerStep P w .spawn).isSome = true := by simp [MHWorkerStep, hlt]
    exact ⟨.spawn, Option.isSome_iff_exists.mp hsome⟩
  · have h6 : w.th = 6 := by
      have := hw.2.1
      omega
    by_cases hall : w.subs.all MHSub.isFinished = true
    · have hsent : w.sent = none := by
        cases hs : w.sent with
        | none => rfl
        | some r => simp [MHWorker.isDone, hs] at hnd
      have hsome : (MHWorkerStep P w .send).isSome = true := by
        simp [MHWorkerStep, h6, hall, hsent]
      exact ⟨.send, Option.isSome_iff_exists.mp hsome⟩
    · have hex : ∃ sub ∈ w.subs, sub.isFinished = false := by
        by_contra hcon
        push_neg at hcon
        apply hall
        rw [List.all_eq_true]
        intro x hx
        simpa using hcon x hx
      obtain ⟨sub, hmem, hnf⟩ := hex
      obtain ⟨k, hk⟩ := List.mem_iff_getElem?.mp hmem
      cases sub with
      | hashing =>
        have hsome : (MHWorkerStep P w (.hash k)).isSome = true := by simp [MHWorkerStep, hk]
        exact ⟨.hash k, Option.isSome_iff_exists.mp hsome⟩
      | ready r =>
        have hsome : (MHWorkerStep P w (.store k)).isSome = true := by simp [MHWorkerStep, hk]
        exact ⟨.store k, Option.isSome_iff_exists.mp hsome⟩
      | finished => simp [MHSub.isFinished] at hnf

/-- A stage that has not returned can take a step: no deadlock. -/
theorem MHStep_progress (P : Provider) (s : MHState) (hs : s.ok P) (hf : s.finished = false) :
    ∃ a s' e, MHStep P s a = some (s', e) := by
  cases hin : s.input with
  | cons d rest =>
    exact ⟨.read, ⟨rest, s.workers ++ [MHWorker.start d]⟩, none, by simp [MHStep, hin]⟩
  | nil =>
    have hall : s.workers.all MHWorker.isDone = false := by
      simpa [MHState.finished, hin] using hf
    have hex : ∃ w ∈ s.workers, w.isDone = false := by
      by_contra hcon
      push_neg at hcon
      have : s.workers.all MHWorker.isDone = true := by
        rw [List.all_eq_true]
        intro x hx
        simpa using hcon x hx
      simp [this] at hall
    obtain ⟨w, hmem, hnd⟩ := hex
    obtain ⟨i, hi⟩ := List.mem_iff_getElem?.mp hmem
    obtain ⟨o, ⟨w', e⟩, hr⟩ := MHWorkerStep_next P w (hs w hmem) hnd
    exact ⟨.op i o, { s with workers := s.workers.set i w' }, e, by simp [MHStep, hi, hr]⟩

/-- From every state of the stage some run leads to its return. -/
theorem MHRun_completes (P : Provider) : ∀ (m : Nat) (s : MHState) (out : List String),
    s.ok P → MHMeasure 0 s ≤ m →
    ∃ acts s' out', MHRun P acts (s, out) = some (s', out') ∧ s'.finished = true := by
  intro m
  induction m with
  | zero =>
    intro s out hs hm
    by_cases hf : s.finished = true
    · exact ⟨[], s, out, rfl, hf⟩
    · obtain ⟨a, s1, e, hstep⟩ := MHStep_progress P s hs (by simpa using hf)
      have := MHStep_measure P 0 s s1 a e hstep
      omega
  | succ m ih =>
    intro s out hs hm
    by_cases hf : s.finished = true
    · exact ⟨[], s, out, rfl, hf⟩
    · obtain ⟨a, s1, e, hstep⟩ := MHStep_progress P s hs (by simpa using hf)
      have hdec := MHStep_measure P 0 s s1 a e hstep
      obtain ⟨acts, s', out', hrun, hfin⟩ :=
        ih s1 (out ++ e.toList) (MHStep_ok P s s1 a e hstep hs) (by omega)
      exact ⟨a :: acts, s', out', by simp [MHRun, hstep, hrun], hfin⟩

theorem MHPending_finished {β : Type} (P : Provider) (h : String → β) (s : MHState)
    (hf : s.finished = true) : MHPending P h s = [] := by
  simp only [MHState.finished, Bool.and_eq_true, List.isEmpty_iff, List.all_eq_true] at hf
  simp only [MHPending, hf.1, List.map_nil, List.append_nil, List.flatMap_eq_nil_iff]
  intro w hw
  simp [MHOwed, hf.2 w hw]

theorem SHPending_init {β : Type} (P : Provider) (h : String → β) (inputs : List Int) :
    SHPending P h (SHInit inputs) = inputs.map (fun n => h (SingleHashSpec P n)) := by
  simp [SHPending, SHInit]

theorem MHPending_init {β : Type} (P : Provider) (h : String → β) (inputs : List String) :
    MHPending P h (MHInit inputs) = inputs.map (fun d => h (MultiHashSpec P d)) := by
  simp [MHPending, MHInit]

/-! ## The items of the workers are the items read -/

theorem SHStep_data (P : Provider) (s s' : SHState) (a : SHAction) (e : Option String)
    (h : SHStep P s a = some (s', e)) :
    s'.workers.map SHWorker.data ++ s'.input = s.workers.map SHWorker.data ++ s.input := by
  rcases SHStep_cases P s s' a e h with ⟨n, rest, -, hin, -, rfl⟩ |
    ⟨i, o, w, w', mu', pre, post, -, hm, hws, -, rfl⟩
  · simp [hin]
  · have hd : w'.data = w.data := by
      generalize s.mu = m at hm
      cases hm <;> rfl
    simp [hws, hd]

theorem SHRun_data (P : Provider) (acts : List SHAction) :
    ∀ (s s' : SHState) (out out' : List String), SHRun P acts (s, out) = some (s', out') →
      s'.workers.map SHWorker.data ++ s'.input = s.workers.map SHWorker.data ++ s.input := by
  induction acts with
  | nil =>
    intro s s' out out' hrun
    simp only [SHRun, Option.some.injEq, Prod.mk.injEq] at hrun
    rw [hrun.1]
  | cons a as ih =>
    intro s s' out out' hrun
    simp only [SHRun] at hrun
    split at hrun
    · simp at hrun
    · rename_i s1 e hstep
      rw [ih s1 s' _ out' hrun, SHStep_data P s s1 a e hstep]

theorem MHStep_data (P : Provider) (s s' : MHState) (a : MHAction) (e : Option String)
    (h : MHStep P s a = some (s', e)) :
    s'.workers.map MHWorker.data ++ s'.input = s.workers.map MHWorker.data ++ s.input := by
  rcases MHStep_cases P s s' a e h with ⟨d, rest, -, hin, -, rfl⟩ |
    ⟨i, o, w, w', pre, post, -, hm, hws, -, rfl⟩
  · simp [hin, MHWorker.start]
  · have hd : w'.data = w.data := by
      rcases MHWorkerStep_cases P w w' o e hm with ⟨-, -, -, rfl⟩ | ⟨k0, -, -, -, rfl⟩ |
        ⟨k0, res, -, -, -, rfl⟩ | ⟨-, -, -, -, -, rfl⟩ <;> rfl
    simp [hws, hd]

theorem MHRun_data (P : Provider) (acts : List MHAction) :
    ∀ (s s' : MHState) (out out' : List String), MHRun P acts (s, out) = some (s', out') →
      s'.workers.map MHWorker.data ++ s'.input = s.workers.map MHWorker.data ++ s.input := by
  induction acts with
  | nil =>
    intro s s' out out' hrun
    simp only [MHRun, Option.some.injEq, Prod.mk.injEq] at hrun
    rw [hrun.1]
  | cons a as ih =>
    intro s s' out out' hrun
    simp only [MHRun] at hrun
    split at hrun
    · simp at hrun
    · rename_i s1 e hstep
      rw [ih s1 s' _ out' hrun, MHStep_data P s s1 a e hstep]

/-! ## `SingleHash`: what is written -/

/-- C1: in every run of `SingleHash`, under every interleaving of the workers
and of their two sub-tasks, a step that writes an item to `out` is the send of
a worker started for an item `n` of the input, and the item written is
`DataSignerCrc32(Itoa n) ++ "~" ++ DataSignerCrc32(DataSignerMd5(Itoa n))`. -/
theorem SingleHash_writes_spec (P : Provider) (inputs : List Int) (acts : List SHAction)
    (s : SHState) (out : List String)
    (hrun : SHRun P acts (SHInit inputs, []) = some (s, out))
    (a : SHAction) (s' : SHState) (r : String) (hstep : SHStep P s a = some (s', some r)) :
    ∃ i n, a = .op i .send ∧ s.workers[i]? = some ⟨n, .sendOut r⟩ ∧ n ∈ inputs ∧
      r = P.DataSignerCrc32 (Itoa n) ++ "~" ++
        P.DataSignerCrc32 (P.DataSignerMd5 (Itoa n)) := by
  have hok := (SHRun_inv P id 0 acts _ _ _ _ hrun (SHInit_ok P inputs)).1
  have hdata := SHRun_data P acts _ _ _ _ hrun
  simp only [SHInit, List.map_nil, List.nil_append] at hdata
  rcases SHStep_cases P s s' a (some r) hstep with ⟨n, rest, -, -, hnone, -⟩ |
    ⟨i, o, w, w', mu', pre, post, rfl, hm, hws, hlen, -⟩
  · simp at hnone
  · have hwok : w.ok P := hok.1 w (by simp [hws])
    have hmem : w.data ∈ inputs := by
      rw [← hdata, hws]
      simp
    generalize s.mu = m at hm
    cases hm with
    | send mu n res =>
      refine ⟨pre.length, n, by rw [hlen], ?_, hmem, ?_⟩
      · rw [hws, List.getElem?_append_right (Nat.le_refl _)]
        simp
      · simpa [SHWorker.ok, SingleHashSpec] using hwok

theorem SingleHash_writes_spec_witness :
    ∃ i n, SHAction.op 0 .send = .op i .send ∧
      (⟨[8], [⟨7, .sendOut "c(7)~c(m(7))"⟩], false⟩ : SHState).workers[i]? =
        some ⟨n, .sendOut "c(7)~c(m(7))"⟩ ∧ n ∈ [7, 8] ∧
      "c(7)~c(m(7))" = tagProvider.DataSignerCrc32 (Itoa n) ++ "~" ++
        tagProvider.DataSignerCrc32 (tagProvider.DataSignerMd5 (Itoa n)) :=
  SingleHash_writes_spec tagProvider [7, 8]
    [.read, .op 0 .lock, .op 0 .call, .op 0 .ret, .op 0 .unlock, .op 0 .crcRight,
      .op 0 .crcLeft, .op 0 .takeLeft, .op 0 .takeRight]
    ⟨[8], [⟨7, .sendOut "c(7)~c(m(7))"⟩], false⟩ [] (by decide)
    (.op 0 .send) ⟨[8], [⟨7, .done "c(7)~c(m(7))"⟩], false⟩ "c(7)~c(m(7))" (by decide)

/-! ## `SingleHash`: mutual exclusion -/

theorem countP_two_le {α : Type} (p : α → Bool) (l : List α) (i j : Nat) (a b : α)
    (hi : l[i]? = some a) (hj : l[j]? = some b) (hij : i < j) (ha : p a = true)
    (hb : p b = true) : 2 ≤ l.countP p := by
  obtain ⟨pre, post, h1, -, h3⟩ := list_set_split l i a a hi
  rw [h1] at hj ⊢
  rw [List.getElem?_append_right (by omega)] at hj
  have hpos : 0 < j - pre.length := by omega
  obtain ⟨k, hk⟩ : ∃ k, j - pre.length = k + 1 := ⟨j - pre.length - 1, by omega⟩
  rw [hk, List.getElem?_cons_succ] at hj
  have hmem : b ∈ post := List.mem_iff_getElem?.mpr ⟨k, hj⟩
  have hpost : 0 < post.countP p := List.countP_pos_iff.mpr ⟨b, hmem, hb⟩
  simp only [List.countP_append, List.countP_cons, ha, if_true]
  omega

/-- In a state that satisfies the invariant at most one call is in flight,
every call in flight is made under the lock, and no lock move is enabled while
a call is in flight. -/
theorem SH_ok_mutex (P : Provider) (s : SHState) (hok : s.ok P) :
    s.workers.countP SHWorker.inFlight ≤ 1 ∧
      (∀ w ∈ s.workers, w.inFlight = true → s.mu = true) ∧
      (∀ (i j : Nat) (wi wj : SHWorker), s.workers[i]? = some wi → s.workers[j]? = some wj →
        wi.inFlight = true → wj.inFlight = true → i = j) ∧
      (∀ w ∈ s.workers, w.inFlight = true → ∀ j, SHStep P s (.op j .lock) = none) := by
  have hle : s.workers.countP SHWorker.inFlight ≤ s.workers.countP SHWorker.holdsLock := by
    apply List.countP_mono_left
    intro w _ hw
    obtain ⟨n, pc⟩ := w
    cases pc <;> simp_all [SHWorker.inFlight, SHWorker.holdsLock]
  have hone : s.workers.countP SHWorker.inFlight ≤ 1 := by
    have := hok.2
    split at this <;> omega
  have hmu : ∀ w ∈ s.workers, w.inFlight = true → s.mu = true := by
    intro w hmem hw
    have hpos : 0 < s.workers.countP SHWorker.inFlight := List.countP_pos_iff.mpr ⟨w, hmem, hw⟩
    have := hok.2
    by_contra hne
    simp only [hne, if_false] at this
    omega
  refine ⟨hone, hmu, ?_, ?_⟩
  · intro i j wi wj hi hj hwi hwj
    by_contra hne
    rcases Nat.lt_or_gt_of_ne hne with hlt | hgt
    · have := countP_two_le SHWorker.inFlight s.workers i j wi wj hi hj hlt hwi hwj
      omega
    · have := countP_two_le SHWorker.inFlight s.workers j i wj wi hj hi hgt hwj hwi
      omega
  · intro w hmem hw j
    have hlocked := hmu w hmem hw
    simp only [SHStep]
    cases hj : s.workers[j]? with
    | none => rfl
    | some wj =>
      obtain ⟨n, pc⟩ := wj
      cases pc <;> simp [SHWorkerStep, hlocked]

/-- C7: in every state reached by a run of `SingleHash`, on any number of
items and under every interleaving, at most one call of `DataSignerMd5` is in
flight: two workers in flight are the same worker; a call in flight is made
under the lock; and while a call is in flight no worker can take the lock. -/
theorem SingleHash_md5_never_reentered (P : Provider) (inputs : List Int)
    (acts : List SHAction) (s : SHState) (out : List String)
    (hrun : SHRun P acts (SHInit inputs, []) = some (s, out)) :
    s.workers.countP SHWorker.inFlight ≤ 1 ∧
      (∀ w ∈ s.workers, w.inFlight = true → s.mu = true) ∧
      (∀ (i j : Nat) (wi wj : SHWorker), s.workers[i]? = some wi → s.workers[j]? = some wj →
        wi.inFlight = true → wj.inFlight = true → i = j) ∧
      (∀ w ∈ s.workers, w.inFlight = true → ∀ j, SHStep P s (.op j .lock) = none) :=
  SH_ok_mutex P s (SHRun_inv P id 0 acts _ _ _ _ hrun (SHInit_ok P inputs)).1

theorem SingleHash_md5_never_reentered_witness :
    (⟨[], [⟨1, .atLock⟩, ⟨2, .inMd5⟩], true⟩ : SHState).workers.countP SHWorker.inFlight ≤ 1 ∧
      SHStep tagProvider ⟨[], [⟨1, .atLock⟩, ⟨2, .inMd5⟩], true⟩ (.op 0 .lock) = none :=
  have h := SingleHash_md5_never_reentered tagProvider [1, 2]
    [.read, .read, .op 1 .lock, .op 1 .call] ⟨[], [⟨1, .atLock⟩, ⟨2, .inMd5⟩], true⟩ []
    (by decide)
  ⟨h.1, h.2.2.2 ⟨2, .inMd5⟩ (by decide) (by decide) 0⟩

/-! ## `MultiHash`: what is written -/

/-- C2: in every run of `MultiHash`, under every order in which the sub-tasks
hash and store, a step that writes an item to `out` is the send of a worker
started for an item `data` of the input; at that step the six slots hold
`DataSignerCrc32("0" ++ data)` to `DataSignerCrc32("5" ++ data)` in the order
of the salts, and the item written is their concatenation in that order. -/
theorem MultiHash_writes_spec (P : Provider) (inputs : List String) (acts : List MHAction)
    (s : MHState) (out : List String)
    (hrun : MHRun P acts (MHInit inputs, []) = some (s, out))
    (a : MHAction) (s' : MHState) (r : String) (hstep : MHStep P s a = some (s', some r)) :
    ∃ i w, a = .op i .send ∧ s.workers[i]? = some w ∧ w.data ∈ inputs ∧
      w.mhData = [P.DataSignerCrc32 ("0" ++ w.data), P.DataSignerCrc32 ("1" ++ w.data),
        P.DataSignerCrc32 ("2" ++ w.data), P.DataSignerCrc32 ("3" ++ w.data),
        P.DataSignerCrc32 ("4" ++ w.data), P.DataSignerCrc32 ("5" ++ w.data)] ∧
      r = P.DataSignerCrc32 ("0" ++ w.data) ++ P.DataSignerCrc32 ("1" ++ w.data) ++
        P.DataSignerCrc32 ("2" ++ w.data) ++ P.DataSignerCrc32 ("3" ++ w.data) ++
        P.DataSignerCrc32 ("4" ++ w.data) ++ P.DataSignerCrc32 ("5" ++ w.data) := by
  have hok := (MHRun_inv P id 0 acts _ _ _ _ hrun (MHInit_ok P inputs)).1
  have hdata := MHRun_data P acts _ _ _ _ hrun
  simp only [MHInit, List.map_nil, List.nil_append] at hdata
  rcases MHStep_cases P s s' a (some r) hstep with ⟨n, rest, -, -, hnone, -⟩ |
    ⟨i, o, w, w', pre, post, rfl, hm, hws, hlen, -⟩
  · simp at hnone
  · have hwok : w.ok P := hok w (by simp [hws])
    have hmem : w.data ∈ inputs := by
      rw [← hdata, hws]
      simp
    rcases MHWorkerStep_cases P w w' o (some r) hm with ⟨-, -, he, -⟩ | ⟨k0, -, -, he, -⟩ |
      ⟨k0, res, -, -, he, -⟩ | ⟨rfl, h6, hall, hnone, he, -⟩
    · simp at he
    · simp at he
    · simp at he
    · obtain ⟨hl, -, hd, -, hfin, -⟩ := hwok
      have hslots := slots_eq P w.data w.mhData hd
        (fun k hk => hfin k (MHSub_finished_of_all w.subs hall k (by omega)))
      refine ⟨pre.length, w, by rw [hlen], ?_, hmem, hslots, ?_⟩
      · rw [hws, List.getElem?_append_right (Nat.le_refl _)]
        simp
      · simp only [Option.some.injEq] at he
        rw [he, Join_slots P w.data w.mhData hd
          (fun k hk => hfin k (MHSub_finished_of_all w.subs hall k (by omega)))]
        rfl

theorem MultiHash_writes_spec_witness :
    ∃ i w, MHAction.op 0 .send = .op i .send ∧
      (⟨[], [⟨"x", 6, List.replicate 6 .finished,
        ["c(0x)", "c(1x)", "c(2x)", "c(3x)", "c(4x)", "c(5x)"], none⟩]⟩ : MHState).workers[i]?
        = some w ∧ w.data ∈ ["x"] ∧
      w.mhData = [tagProvider.DataSignerCrc32 ("0" ++ w.data),
        tagProvider.DataSignerCrc32 ("1" ++ w.data), tagProvider.DataSignerCrc32 ("2" ++ w.data),
        tagProvider.DataSignerCrc32 ("3" ++ w.data), tagProvider.DataSignerCrc32 ("4" ++ w.data),
        tagProvider.DataSignerCrc32 ("5" ++ w.data)] ∧
      "c(0x)c(1x)c(2x)c(3x)c(4x)c(5x)" =
        tagProvider.DataSignerCrc32 ("0" ++ w.data) ++
        tagProvider.DataSignerCrc32 ("1" ++ w.data) ++
        tagProvider.DataSignerCrc32 ("2" ++ w.data) ++
        tagProvider.DataSignerCrc32 ("3" ++ w.data) ++
        tagProvider.DataSignerCrc32 ("4" ++ w.data) ++
        tagProvider.DataSignerCrc32 ("5" ++ w.data) :=
  MultiHash_writes_spec tagProvider ["x"]
    [.read, .op 0 .spawn, .op 0 .spawn, .op 0 (.hash 1), .op 0 .spawn, .op 0 .spawn,
      .op 0 (.hash 3), .op 0 (.store 3), .op 0 .spawn, .op 0 .spawn, .op 0 (.hash 5),
      .op 0 (.hash 0), .op 0 (.store 1), .op 0 (.store 5), .op 0 (.hash 2), .op 0 (.hash 4),
      .op 0 (.store 0), .op 0 (.store 4), .op 0 (.store 2)]
    ⟨[], [⟨"x", 6, List.replicate 6 .finished,
      ["c(0x)", "c(1x)", "c(2x)", "c(3x)", "c(4x)", "c(5x)"], none⟩]⟩ [] (by decide)
    (.op 0 .send)
    ⟨[], [⟨"x", 6, List.replicate 6 .finished,
      ["c(0x)", "c(1x)", "c(2x)", "c(3x)", "c(4x)", "c(5x)"],
      some "c(0x)c(1x)c(2x)c(3x)c(4x)c(5x)"⟩]⟩
    "c(0x)c(1x)c(2x)c(3x)c(4x)c(5x)" (by decide)

/-! ## No item is dropped or duplicated -/

/-- The items written by a run of `SingleHash` that has returned are the
results of its input items, each once. -/
theorem SH_finished_out (P : Provider) (inputs : List Int) (acts : List SHAction)
    (s : SHState) (out : List String)
    (hrun : SHRun P acts (SHInit inputs, []) = some (s, out)) (hfin : s.finished = true) :
    out.Perm (inputs.map (SingleHashSpec P)) := by
  have h := (SHRun_inv P id 0 acts _ _ _ _ hrun (SHInit_ok P inputs)).2.1
  rw [SHPending_finished P id s hfin, SHPending_init] at h
  simpa using h.symm

/-- The items written by a run of `MultiHash` that has returned are the results
of its input items, each once. -/
theorem MH_finished_out (P : Provider) (inputs : List String) (acts : List MHAction)
    (s : MHState) (out : List String)
    (hrun : MHRun P acts (MHInit inputs, []) = some (s, out)) (hfin : s.finished = true) :
    out.Perm (inputs.map (MultiHashSpec P)) := by
  have h := (MHRun_inv P id 0 acts _ _ _ _ hrun (MHInit_ok P inputs)).2.1
  rw [MHPending_finished P id s hfin, MHPending_init] at h
  simpa using h.symm

/-- C4: for every input sequence, `SingleHash` and `MultiHash` have runs that
return, every run is bounded in length, and once a run has returned the items
written are, as a multiset, the per-item results of the input items, so as
many as the input items; and the parts joined by `CombineResults` hold every
item read as often as it was read. -/
theorem stages_keep_every_item (P : Provider) (ints : List Int) (strs : List String) :
    (∃ acts s out, SHRun P acts (SHInit ints, []) = some (s, out) ∧ s.finished = true) ∧
    (∀ acts s out, SHRun P acts (SHInit ints, []) = some (s, out) →
      acts.length ≤ SHMeasure 0 (SHInit ints) ∧
      (s.finished = true →
        out.Perm (ints.map (fun n => P.DataSignerCrc32 (Itoa n) ++ "~" ++
          P.DataSignerCrc32 (P.DataSignerMd5 (Itoa n)))) ∧ out.length = ints.length)) ∧
    (∃ acts s out, MHRun P acts (MHInit strs, []) = some (s, out) ∧ s.finished = true) ∧
    (∀ acts s out, MHRun P acts (MHInit strs, []) = some (s, out) →
      acts.length ≤ MHMeasure 0 (MHInit strs) ∧
      (s.finished = true →
        out.Perm (strs.map (fun d => P.DataSignerCrc32 ("0" ++ d) ++
          P.DataSignerCrc32 ("1" ++ d) ++ P.DataSignerCrc32 ("2" ++ d) ++
          P.DataSignerCrc32 ("3" ++ d) ++ P.DataSignerCrc32 ("4" ++ d) ++
          P.DataSignerCrc32 ("5" ++ d))) ∧ out.length = strs.length)) ∧
    (∃ parts, CombineResults strs = [Join parts "_"] ∧ parts.Perm strs ∧
      ∀ x, parts.count x = strs.count x) := by
  refine ⟨SHRun_completes P _ (SHInit ints) [] (SHInit_ok P ints) (Nat.le_refl _), ?_,
    MHRun_completes P _ (MHInit strs) [] (MHInit_ok P strs) (Nat.le_refl _), ?_, ?_⟩
  · intro acts s out hrun
    refine ⟨?_, ?_⟩
    · have := (SHRun_inv P id 0 acts _ _ _ _ hrun (SHInit_ok P ints)).2.2
      omega
    · intro hfin
      have hp := SH_finished_out P ints acts s out hrun hfin
      exact ⟨hp, by simpa using hp.length_eq⟩
  · intro acts s out hrun
    refine ⟨?_, ?_⟩
    · have := (MHRun_inv P id 0 acts _ _ _ _ hrun (MHInit_ok P strs)).2.2
      omega
    · intro hfin
      have hp := MH_finished_out P strs acts s out hrun hfin
      exact ⟨hp, by simpa using hp.length_eq⟩
  · exact ⟨sortStrings strs, CombineResults_eq strs, sortSlice_perm _ _,
      fun x => (sortSlice_perm stringLess strs).count_eq x⟩

theorem stages_keep_every_item_witness :
    ["c(2)~c(m(2))", "c(1)~c(m(1))"].Perm
        ([1, 2].map (fun n => tagProvider.DataSignerCrc32 (Itoa n) ++ "~" ++
          tagProvider.DataSignerCrc32 (tagProvider.DataSignerMd5 (Itoa n)))) ∧
      ["c(2)~c(m(2))", "c(1)~c(m(1))"].length = [1, 2].length :=
  ((stages_keep_every_item tagProvider [1, 2] ["x"]).2.1
    [.read, .read, .op 1 .lock, .op 1 .call, .op 1 .ret, .op 1 .unlock, .op 0 .lock,
      .op 1 .crcRight, .op 0 .call, .op 1 .crcLeft, .op 1 .takeLeft, .op 0 .ret,
      .op 1 .takeRight, .op 1 .send, .op 0 .unlock, .op 0 .crcLeft, .op 0 .takeLeft,
      .op 0 .crcRight, .op 0 .takeRight, .op 0 .send]
    ⟨[], [⟨1, .done "c(1)~c(m(1))"⟩, ⟨2, .done "c(2)~c(m(2))"⟩], false⟩
    ["c(2)~c(m(2))", "c(1)~c(m(1))"] (by decide)).2 (by decide)

/-! ## Two invocations of `SingleHash`: one lock each -/

theorem PairRun_ok (P : Provider) (acts : List PairAction) :
    ∀ s s' : SHState × SHState, PairRun P acts s = some s' → s.1.ok P → s.2.ok P →
      s'.1.ok P ∧ s'.2.ok P := by
  induction acts with
  | nil =>
    intro s s' hrun h1 h2
    simp only [PairRun, Option.some.injEq] at hrun
    rw [← hrun]
    exact ⟨h1, h2⟩
  | cons a as ih =>
    intro s s' hrun h1 h2
    simp only [PairRun] at hrun
    split at hrun
    · simp at hrun
    · rename_i t hstep
      cases a with
      | first a =>
        simp only [PairStep] at hstep
        split at hstep
        · simp at hstep
        · rename_i s1 e hsh
          simp only [Option.some.injEq] at hstep
          subst hstep
          exact ih _ s' hrun (SHStep_ok P s.1 s1 a e hsh h1) h2
      | second a =>
        simp only [PairStep] at hstep
        split at hstep
        · simp at hstep
        · rename_i s2 e hsh
          simp only [Option.some.injEq] at hstep
          subst hstep
          exact ih _ s' hrun h1 (SHStep_ok P s.2 s2 a e hsh h2)

/-- C8, the claim fails: two invocations of `SingleHash` that run side by side
reach a state in which a call of `DataSignerMd5` is in flight in each, both
locks held: two calls in flight at the same time. -/
theorem two_invocations_overlap :
    PairRun tagProvider
        [.first .read, .first (.op 0 .lock), .first (.op 0 .call), .second .read,
          .second (.op 0 .lock), .second (.op 0 .call)] (SHInit [1], SHInit [2]) =
      some ((⟨[], [⟨1, .inMd5⟩], true⟩ : SHState), (⟨[], [⟨2, .inMd5⟩], true⟩ : SHState)) ∧
    ((⟨[], [⟨1, .inMd5⟩], true⟩ : SHState).workers ++
      (⟨[], [⟨2, .inMd5⟩], true⟩ : SHState).workers).countP SHWorker.inFlight = 2 := by
  decide

/-- C8 as amended: the lock is one per invocation of `SingleHash`. In every
state that two invocations running side by side reach, each invocation has at
most one call of `DataSignerMd5` in flight, made under the lock of that
invocation, and while it is in flight no worker of that invocation can take
that lock. -/
theorem lock_is_per_invocation (P : Provider) (xs ys : List Int) (acts : List PairAction)
    (s : SHState × SHState) (hrun : PairRun P acts (SHInit xs, SHInit ys) = some s) :
    (s.1.workers.countP SHWorker.inFlight ≤ 1 ∧
      (∀ w ∈ s.1.workers, w.inFlight = true →
        s.1.mu = true ∧ ∀ j, SHStep P s.1 (.op j .lock) = none)) ∧
    (s.2.workers.countP SHWorker.inFlight ≤ 1 ∧
      (∀ w ∈ s.2.workers, w.inFlight = true →
        s.2.mu = true ∧ ∀ j, SHStep P s.2 (.op j .lock) = none)) := by
  obtain ⟨h1, h2⟩ := PairRun_ok P acts _ s hrun (SHInit_ok P xs) (SHInit_ok P ys)
  obtain ⟨a1, a2, -, a4⟩ := SH_ok_mutex P s.1 h1
  obtain ⟨b1, b2, -, b4⟩ := SH_ok_mutex P s.2 h2
  exact ⟨⟨a1, fun w hw hf => ⟨a2 w hw hf, a4 w hw hf⟩⟩,
    ⟨b1, fun w hw hf => ⟨b2 w hw hf, b4 w hw hf⟩⟩⟩

theorem lock_is_per_invocation_witness :
    ([⟨1, .inMd5⟩, ⟨3, .atLock⟩] : List SHWorker).countP SHWorker.inFlight ≤ 1 ∧
      SHStep tagProvider ⟨[], [⟨1, .inMd5⟩, ⟨3, .atLock⟩], true⟩ (.op 1 .lock) = none :=
  have h := lock_is_per_invocation tagProvider [1, 3] [2]
    [.first .read, .first (.op 0 .lock), .first (.op 0 .call), .second .read,
      .second (.op 0 .lock), .first .read, .second (.op 0 .call)]
    (⟨[], [⟨1, .inMd5⟩, ⟨3, .atLock⟩], true⟩, ⟨[], [⟨2, .inMd5⟩], true⟩) (by decide)
  ⟨h.1.1, (h.1.2 ⟨1, .inMd5⟩ (by decide) (by decide)).2 1⟩

/-! ## `strconv.Itoa` is injective -/

theorem digitValue_digitChar (d : Nat) (h : d < 10) : digitValue (Nat.digitChar d) = d := by
  interval_cases d <;> rfl

theorem digitChar_ne_minus (d : Nat) (h : d < 10) : Nat.digitChar d ≠ '-' := by
  interval_cases d <;> decide

theorem toDigitsCore_read : ∀ (fuel n : Nat) (ds : List Char), n < fuel →
    (Nat.toDigitsCore 10 fuel n ds).foldl (fun acc c => acc * 10 + digitValue c) 0 =
      ds.foldl (fun acc c => acc * 10 + digitValue c) n := by
  intro fuel
  induction fuel with
  | zero => intro n ds h; omega
  | succ fuel ih =>
    intro n ds h
    simp only [Nat.toDigitsCore]
    split_ifs with h0
    · have hn : n % 10 = n := by omega
      have hlt : n < 10 := by omega
      simp only [List.foldl_cons, hn, digitValue_digitChar n hlt, Nat.zero_mul, Nat.zero_add]
    · rw [ih (n / 10) _ (by omega)]
      simp only [List.foldl_cons, digitValue_digitChar (n % 10) (Nat.mod_lt _ (by omega))]
      congr 1
      omega

theorem toDigitsCore_mem : ∀ (fuel n : Nat) (ds : List Char) (c : Char),
    c ∈ Nat.toDigitsCore 10 fuel n ds → c ∈ ds ∨ ∃ d, d < 10 ∧ c = Nat.digitChar d := by
  intro fuel
  induction fuel with
  | zero => intro n ds c h; exact Or.inl (by simpa [Nat.toDigitsCore] using h)
  | succ fuel ih =>
    intro n ds c h
    simp only [Nat.toDigitsCore] at h
    split_ifs at h with h0
    · rcases List.mem_cons.mp h with rfl | h
      · exact Or.inr ⟨n % 10, Nat.mod_lt _ (by omega), rfl⟩
      · exact Or.inl h
    · rcases ih _ _ _ h with h | h
      · rcases List.mem_cons.mp h with rfl | h
        · exact Or.inr ⟨n % 10, Nat.mod_lt _ (by omega), rfl⟩
        · exact Or.inl h
      · exact Or.inr h

theorem readDecimal_repr (n : Nat) : readDecimal (Nat.repr n).data = n := by
  simp only [Nat.repr, Nat.toDigits, List.asString, readDecimal]
  rw [toDigitsCore_read (n + 1) n [] (by omega)]
  rfl

theorem minus_not_mem_repr (n : Nat) : '-' ∉ (Nat.repr n).data := by
  intro h
  simp only [Nat.repr, Nat.toDigits, List.asString] at h
  rcases toDigitsCore_mem _ _ _ _ h with h | ⟨d, hd, h⟩
  · simp at h
  · exact digitChar_ne_minus d hd h.symm

theorem Itoa_injective : Function.Injective Itoa := by
  intro a b h
  cases a with
  | ofNat m =>
    cases b with
    | ofNat k =>
      simp only [Itoa] at h
      have := congrArg (fun s => readDecimal s.data) h
      simp only [readDecimal_repr] at this
      rw [this]
    | negSucc k =>
      simp only [Itoa] at h
      exfalso
      apply minus_not_mem_repr m
      rw [h]
      simp
  | negSucc m =>
    cases b with
    | ofNat k =>
      simp only [Itoa] at h
      exfalso
      apply minus_not_mem_repr k
      rw [← h]
      simp
    | negSucc k =>
      simp only [Itoa] at h
      have h2 : (Nat.repr (m + 1)).data = (Nat.repr (k + 1)).data := by
        have := congrArg String.data h
        simpa using this
      have := congrArg readDecimal h2
      simp only [readDecimal_repr] at this
      have hmk : m = k := by omega
      rw [hmk]

/-- Two strings without the separator that are followed by the separator and
further text, and give the same text, are the same string. -/
theorem prefix_before_separator (c : Char) : ∀ (a1 a2 b1 b2 : List Char),
    c ∉ a1 → c ∉ a2 → a1 ++ c :: b1 = a2 ++ c :: b2 → a1 = a2
  | [], [], _, _, _, _, _ => rfl
  | [], x :: a2, b1, b2, _, h2, h => by
    simp only [List.nil_append, List.cons_append, List.cons.injEq] at h
    exact absurd (h.1 ▸ List.mem_cons_self _ _) h2
  | x :: a1, [], b1, b2, h1, _, h => by
    simp only [List.nil_append, List.cons_append, List.cons.injEq] at h
    exact absurd (h.1 ▸ List.mem_cons_self _ _) h1
  | x :: a1, y :: a2, b1, b2, h1, h2, h => by
    simp only [List.cons_append, List.cons.injEq] at h
    rw [h.1, prefix_before_separator c a1 a2 b1 b2
      (fun hm => h1 (List.mem_cons_of_mem _ hm)) (fun hm => h2 (List.mem_cons_of_mem _ hm)) h.2]

/-! ## `SingleHash`: distinct items, distinct results -/

theorem clashProvider_crc32_injective : Function.Injective clashProvider.DataSignerCrc32 := by
  intro a b h
  simp only [clashProvider] at h
  split_ifs at h
  all_goals first
    | (subst_vars; rfl)
    | (exfalso; revert h; decide)
    | (exfalso; have h2 := congrArg String.data h; simp at h2; done)
    | (have h2 := congrArg String.data h
       simp only [String.data_append, List.append_cancel_left_eq] at h2
       exact String.ext h2)

theorem clashProvider_md5_injective : Function.Injective clashProvider.DataSignerMd5 := by
  intro a b h
  have h2 := congrArg String.data h
  simp only [clashProvider, String.data_append, List.append_cancel_left_eq] at h2
  exact String.ext h2

/-- C9, the claim fails: with hash functions that are both injective, the
items `1` and `2` make `SingleHash` write the same string `x~~y`. -/
theorem injective_hashes_same_result :
    Function.Injective clashProvider.DataSignerCrc32 ∧
    Function.Injective clashProvider.DataSignerMd5 ∧
    SHRun clashProvider (SHSequential 0 2) (SHInit [1, 2], []) =
      some (⟨[], [⟨1, .done "x~~y"⟩, ⟨2, .done "x~~y"⟩], false⟩, ["x~~y", "x~~y"]) :=
  ⟨clashProvider_crc32_injective, clashProvider_md5_injective, by decide⟩

/-- C9 as amended: when `DataSignerCrc32` has no collision on the renderings
of two distinct items `n1` and `n2` and its values on them hold no `~`, the
strings that `SingleHash` writes for `n1` and for `n2` differ. -/
theorem SingleHash_results_distinct (P : Provider) (inputs : List Int) (acts : List SHAction)
    (s : SHState) (out : List String)
    (hrun : SHRun P acts (SHInit inputs, []) = some (s, out))
    (i j : Nat) (n1 n2 : Int) (r1 r2 : String)
    (hi : s.workers[i]? = some ⟨n1, .done r1⟩) (hj : s.workers[j]? = some ⟨n2, .done r2⟩)
    (hne : n1 ≠ n2)
    (hcrc : P.DataSignerCrc32 (Itoa n1) = P.DataSignerCrc32 (Itoa n2) → Itoa n1 = Itoa n2)
    (ht1 : '~' ∉ (P.DataSignerCrc32 (Itoa n1)).data)
    (ht2 : '~' ∉ (P.DataSignerCrc32 (Itoa n2)).data) : r1 ≠ r2 := by
  have hok := (SHRun_inv P id 0 acts _ _ _ _ hrun (SHInit_ok P inputs)).1.1
  have h1 : r1 = SingleHashSpec P n1 := hok _ (List.mem_iff_getElem?.mpr ⟨i, hi⟩)
  have h2 : r2 = SingleHashSpec P n2 := hok _ (List.mem_iff_getElem?.mpr ⟨j, hj⟩)
  intro heq
  rw [h1, h2] at heq
  have hd := congrArg String.data heq
  simp only [SingleHashSpec, String.data_append, List.append_assoc] at hd
  have hpre := prefix_before_separator '~' _ _ _ _ ht1 ht2 hd
  exact hne (Itoa_injective (hcrc (String.ext hpre)))

theorem SingleHash_results_distinct_witness :
    ("c(1)~c(m(1))" : String) ≠ "c(2)~c(m(2))" :=
  SingleHash_results_distinct tagProvider [1, 2] (SHSequential 0 2)
    ⟨[], [⟨1, .done "c(1)~c(m(1))"⟩, ⟨2, .done "c(2)~c(m(2))"⟩], false⟩
    ["c(1)~c(m(1))", "c(2)~c(m(2))"] (by decide) 0 1 1 2 _ _ (by decide) (by decide)
    (by decide) (fun h => absurd h (by decide)) (by decide) (by decide)

/-! ## The pipeline -/

theorem MHState_accept_ok (P : Provider) (s : MHState) (d : String) (hs : s.ok P) :
    (s.accept d).ok P := by
  intro w hmem
  simp only [MHState.accept, List.mem_append, List.mem_singleton] at hmem
  rcases hmem with hmem | rfl
  · exact hs w hmem
  · exact MHWorker_start_ok P d

theorem MHPending_accept {β : Type} (P : Provider) (h : String → β) (s : MHState) (d : String) :
    (MHPending P h (s.accept d)).Perm (h (MultiHashSpec P d) :: MHPending P h s) := by
  simp only [MHPending, MHState.accept, List.flatMap_append, List.flatMap_cons,
    List.flatMap_nil, MHOwed, MHWorker.isDone, MHWorker.start, Option.isSome_none,
    Bool.false_eq_true, if_false, List.append_nil, List.append_assoc, List.singleton_append]
  exact List.perm_middle

theorem MHMeasure_accept (c : Nat) (s : MHState) (d : String) :
    MHMeasure c (s.accept d) = MHMeasure c s + (19 + c) := by
  have hw : MHWorker.weight c (MHWorker.start d) = 19 + c := by
    simp [MHWorker.weight, MHWorker.start, MHWorker.isDone]
    omega
  simp only [MHMeasure, MHState.accept, List.map_append, List.sum_append, List.map_cons,
    List.map_nil, List.sum_cons, List.sum_nil, hw]
  omega

theorem MHStep_input (P : Provider) (s s' : MHState) (a : MHAction) (e : Option String)
    (h : MHStep P s a = some (s', e)) (hin : s.input = []) : s'.input = [] := by
  rcases MHStep_cases P s s' a e h with ⟨d, rest, -, hd, -, -⟩ |
    ⟨i, o, w, w', pre, post, -, -, -, -, rfl⟩
  · rw [hin] at hd
    simp at hd
  · exact hin

theorem CombineResults_of_perm (P : Provider) (inputs : List Int) (results : List String)
    (hp : results.Perm (inputs.map (fun n => MultiHashSpec P (SingleHashSpec P n)))) :
    CombineResults results = [PipelineSpec P inputs] := by
  rw [CombineResults_eq, sortStrings_congr _ _ hp, PipelineSpec]

theorem PipeStep_ok (P : Provider) (inputs : List Int) (s s' : PipeState) (a : PipeAction)
    (h : PipeStep P s a = some s') (hs : s.ok P inputs) : s'.ok P inputs := by
  obtain ⟨hsh, hmh, hin, hacc, hout⟩ := hs
  cases a with
  | single a =>
    simp only [PipeStep] at h
    split at h
    · simp at h
    · rename_i sh' hstep
      simp only [Option.some.injEq] at h
      subst h
      have hp := SHStep_pending P (MultiHashSpec P) s.sh sh' a none hstep hsh
      refine ⟨SHStep_ok P _ _ a _ hstep hsh, hmh, hin, ?_, hout⟩
      refine List.Perm.trans ?_ hacc
      exact List.Perm.append_left _ (List.Perm.append_left _ (by simpa using hp.symm))
    · rename_i sh' item hstep
      simp only [Option.some.injEq] at h
      subst h
      have hp := SHStep_pending P (MultiHashSpec P) s.sh sh' a (some item) hstep hsh
      refine ⟨SHStep_ok P _ _ a _ hstep hsh, MHState_accept_ok P _ _ hmh, hin, ?_, hout⟩
      refine List.Perm.trans ?_ hacc
      refine List.Perm.append_left _ ?_
      have h1 := (MHPending_accept P id s.mh item).append_right
        (SHPending P (MultiHashSpec P) sh')
      refine h1.trans ?_
      simp only [id, List.cons_append]
      refine List.Perm.trans List.perm_middle.symm ?_
      exact List.Perm.append_left _ (by simpa using hp.symm)
  | multi a =>
    simp only [PipeStep] at h
    split at h
    · simp at h
    · rename_i mh' e hstep
      simp only [Option.some.injEq] at h
      subst h
      have hp := MHStep_pending P id s.mh mh' a e hstep hmh
      refine ⟨hsh, MHStep_ok P _ _ a e hstep hmh, MHStep_input P _ _ a e hstep hin, ?_, hout⟩
      refine List.Perm.trans ?_ hacc
      simp only [List.append_assoc]
      refine List.Perm.append_left _ ?_
      rw [← List.append_assoc]
      exact List.Perm.append_right _ (by simpa using hp.symm)
  | combine =>
    simp only [PipeStep] at h
    split at h
    · rename_i hc
      simp only [Option.some.injEq] at h
      subst h
      simp only [Bool.and_eq_true] at hc
      refine ⟨hsh, hmh, hin, hacc, Or.inr ?_⟩
      rw [MHPending_finished P id s.mh hc.1.2, SHPending_finished P _ s.sh hc.1.1] at hacc
      exact CombineResults_of_perm P inputs s.results (by simpa using hacc)
    · simp at h

theorem PipeStep_measure (P : Provider) (s s' : PipeState) (a : PipeAction)
    (h : PipeStep P s a = some s') : PipeMeasure s' + 1 ≤ PipeMeasure s := by
  cases a with
  | single a =>
    simp only [PipeStep] at h
    split at h
    · simp at h
    · rename_i sh' hstep
      simp only [Option.some.injEq] at h
      subst h
      have := SHStep_measure P 19 s.sh sh' a none hstep
      simp only [PipeMeasure]
      simp at this
      omega
    · rename_i sh' item hstep
      simp only [Option.some.injEq] at h
      subst h
      have := SHStep_measure P 19 s.sh sh' a (some item) hstep
      simp only [PipeMeasure, MHMeasure_accept]
      simp at this
      omega
  | multi a =>
    simp only [PipeStep] at h
    split at h
    · simp at h
    · rename_i mh' e hstep
      simp only [Option.some.injEq] at h
      subst h
      have := MHStep_measure P 0 s.mh mh' a e hstep
      simp only [PipeMeasure]
      simp at this
      omega
  | combine =>
    simp only [PipeStep] at h
    split at h
    · rename_i hc
      simp only [Option.some.injEq] at h
      subst h
      simp only [Bool.and_eq_true] at hc
      simp [PipeMeasure, hc.2, CombineResults]
    · simp at h

theorem PipeInit_ok (P : Provider) (inputs : List Int) : (PipeInit inputs).ok P inputs := by
  refine ⟨SHInit_ok P inputs, MHInit_ok P [], rfl, ?_, Or.inl rfl⟩
  simp [PipeInit, MHPending_init, SHPending_init]

/-- Every run of the pipeline keeps the invariant and is bounded in length. -/
theorem PipeRun_inv (P : Provider) (inputs : List Int) (acts : List PipeAction) :
    ∀ s s' : PipeState, PipeRun P acts s = some s' → s.ok P inputs →
      s'.ok P inputs ∧ acts.length + PipeMeasure s' ≤ PipeMeasure s := by
  induction acts with
  | nil =>
    intro s s' hrun hs
    simp only [PipeRun, Option.some.injEq] at hrun
    subst hrun
    exact ⟨hs, by simp⟩
  | cons a as ih =>
    intro s s' hrun hs
    simp only [PipeRun] at hrun
    split at hrun
    · simp at hrun
    · rename_i s1 hstep
      obtain ⟨h1, h2⟩ := ih s1 s' hrun (PipeStep_ok P inputs s s1 a hstep hs)
      have hm := PipeStep_measure P s s1 a hstep
      exact ⟨h1, by simp only [List.length_cons]; omega⟩

/-- A pipeline whose last stage has not written can take a step. -/
theorem PipeStep_progress (P : Provider) (inputs : List Int) (s : PipeState)
    (hs : s.ok P inputs) (hout : s.out = []) : ∃ a s', PipeStep P s a = some s' := by
  by_cases h1 : s.sh.finished = true
  · by_cases h2 : s.mh.finished = true
    · exact ⟨.combine, { s with out := CombineResults s.results },
        by simp [PipeStep, h1, h2, hout]⟩
    · obtain ⟨a, mh', e, hstep⟩ := MHStep_progress P s.mh hs.2.1 (by simpa using h2)
      exact ⟨.multi a, { s with mh := mh', results := s.results ++ e.toList },
        by simp [PipeStep, hstep]⟩
  · obtain ⟨a, sh', e, hstep⟩ := SHStep_progress P s.sh hs.1 (by simpa using h1)
    cases e with
    | none => exact ⟨.single a, { s with sh := sh' }, by simp [PipeStep, hstep]⟩
    | some item =>
      exact ⟨.single a, { s with sh := sh', mh := s.mh.accept item }, by simp [PipeStep, hstep]⟩

/-- From every state of the pipeline some run leads to the last stage having
written. -/
theorem PipeRun_completes (P : Provider) (inputs : List Int) : ∀ (m : Nat) (s : PipeState),
    s.ok P inputs → PipeMeasure s ≤ m →
    ∃ acts s', PipeRun P acts s = some s' ∧ s'.out ≠ [] := by
  intro m
  induction m with
  | zero =>
    intro s hs hm
    by_cases hout : s.out = []
    · obtain ⟨a, s1, hstep⟩ := PipeStep_progress P inputs s hs hout
      have := PipeStep_measure P s s1 a hstep
      omega
    · exact ⟨[], s, rfl, hout⟩
  | succ m ih =>
    intro s hs hm
    by_cases hout : s.out = []
    · obtain ⟨a, s1, hstep⟩ := PipeStep_progress P inputs s hs hout
      have hdec := PipeStep_measure P s s1 a hstep
      obtain ⟨acts, s', hrun, hfin⟩ := ih s1 (PipeStep_ok P inputs s s1 a hstep hs) (by omega)
      exact ⟨a :: acts, s', by simp [PipeRun, hstep, hrun], hfin⟩
    · exact ⟨[], s, rfl, hout⟩

/-- C6: for every input sequence the pipeline has a run in which
`CombineResults` writes; every run is bounded in length; in every run, under
every interleaving of the workers of the two transform stages, what
`CombineResults` writes is the one string that joins with `_` the sorted
`MultiHash`-of-`SingleHash` results of the inputs; so two complete runs on the
same input sequence end with the same output. -/
theorem pipeline_deterministic (P : Provider) (inputs : List Int) :
    (∃ acts s, PipeRun P acts (PipeInit inputs) = some s ∧ s.out ≠ []) ∧
    (∀ acts s, PipeRun P acts (PipeInit inputs) = some s →
      acts.length ≤ PipeMeasure (PipeInit inputs) ∧
      (s.out ≠ [] → s.out = [Join (sortStrings (inputs.map
        (fun n => MultiHashSpec P (SingleHashSpec P n)))) "_"])) ∧
    (∀ acts1 acts2 s1 s2, PipeRun P acts1 (PipeInit inputs) = some s1 →
      PipeRun P acts2 (PipeInit inputs) = some s2 → s1.out ≠ [] → s2.out ≠ [] →
      s1.out = s2.out) := by
  have key : ∀ acts s, PipeRun P acts (PipeInit inputs) = some s → s.out ≠ [] →
      s.out = [PipelineSpec P inputs] := by
    intro acts s hrun hne
    have hok := (PipeRun_inv P inputs acts _ s hrun (PipeInit_ok P inputs)).1
    rcases hok.2.2.2.2 with h | h
    · exact absurd h hne
    · exact h
  refine ⟨PipeRun_completes P inputs _ _ (PipeInit_ok P inputs) (Nat.le_refl _), ?_, ?_⟩
  · intro acts s hrun
    refine ⟨?_, fun hne => key acts s hrun hne⟩
    have := (PipeRun_inv P inputs acts _ s hrun (PipeInit_ok P inputs)).2
    omega
  · intro acts1 acts2 s1 s2 h1 h2 hn1 hn2
    rw [key acts1 s1 h1 hn1, key acts2 s2 h2 hn2]

theorem pipeline_deterministic_witness :
    (demoEndInOrder tagProvider).out = (demoEndOvertaking tagProvider).out ∧
      (demoEndOvertaking tagProvider).out = [Join (sortStrings ([1, 0].map
        (fun n => MultiHashSpec tagProvider (SingleHashSpec tagProvider n)))) "_"] :=
  have h := pipeline_deterministic tagProvider [1, 0]
  ⟨h.2.2 demoRunInOrder demoRunOvertaking (demoEndInOrder tagProvider)
      (demoEndOvertaking tagProvider) (by decide) (by decide) (by decide) (by decide),
    (h.2.1 demoRunOvertaking (demoEndOvertaking tagProvider) (by decide)).2 (by decide)⟩

/-! ## `sortUsers` -/

theorem sortSlice_int_ascending (key : User → Int) (users : List User) :
    (sortSlice (fun a b => decide (key a < key b)) users).Pairwise
      (fun a b => key a ≤ key b) := by
  have h := sortSlice_sorted (fun a b : User => decide (key a < key b))
    (by intro a b; simp only [decide_eq_false_iff_not, not_lt]; exact le_total _ _)
    (by
      intro a b c h1 h2
      simp only [decide_eq_false_iff_not, not_lt] at h1 h2 ⊢
      exact le_trans h1 h2) users
  exact h.imp (by intro a b hab; simpa using hab)

theorem sortSlice_int_descending (key : User → Int) (users : List User) :
    (sortSlice (fun a b => decide (key a > key b)) users).Pairwise
      (fun a b => key b ≤ key a) := by
  have h := sortSlice_sorted (fun a b : User => decide (key a > key b))
    (by intro a b; simp only [gt_iff_lt, decide_eq_false_iff_not, not_lt]; exact le_total _ _)
    (by
      intro a b c h1 h2
      simp only [gt_iff_lt, decide_eq_false_iff_not, not_lt] at h1 h2 ⊢
      exact le_trans h2 h1) users
  exact h.imp (by intro a b hab; simpa using hab)

theorem sortSlice_name_ascending (users : List User) :
    (sortSlice (fun a b : User => stringLess a.Name b.Name) users).Pairwise
      (fun a b => stringLess b.Name a.Name = false) :=
  sortSlice_sorted (fun a b : User => stringLess a.Name b.Name)
    (fun a b => stringLess_total a.Name b.Name)
    (fun a b c => bytesLess_le_trans a.Name.data b.Name.data c.Name.data) users

theorem sortSlice_name_descending (users : List User) :
    (sortSlice (fun a b : User => stringLess b.Name a.Name) users).Pairwise
      (fun a b => stringLess a.Name b.Name = false) :=
  sortSlice_sorted (fun a b : User => stringLess b.Name a.Name)
    (fun a b => stringLess_total b.Name a.Name)
    (fun a b c h1 h2 => bytesLess_le_trans c.Name.data b.Name.data a.Name.data h2 h1) users

/-- C10, the claim fails: on the two users of `demoUsers`, the younger first,
`sortUsers` with `orderBy = OrderByDesc` and the field `Age` returns them
unchanged, the younger first, which is not a non-increasing order of `Age`;
with `orderBy = OrderByAsc` it returns the older first, which is not a
non-decreasing order of `Age`. The constants are given the values `-1` and
`1`; the first part holds for every value of theirs. -/
theorem sortUsers_desc_not_descending :
    sortUsers (-1) 1 demoUsers 1 "Age" = demoUsers ∧
    ¬ (sortUsers (-1) 1 demoUsers 1 "Age").Pairwise (fun a b => a.Age ≥ b.Age) ∧
    sortUsers (-1) 1 demoUsers (-1) "Age" = demoUsers.reverse ∧
    ¬ (sortUsers (-1) 1 demoUsers (-1) "Age").Pairwise (fun a b => a.Age ≤ b.Age) ∧
    (∀ OrderByAsc OrderByDesc : Int,
      ¬ (sortUsers OrderByAsc OrderByDesc demoUsers OrderByDesc "Age").Pairwise
        (fun a b => a.Age ≥ b.Age)) := by
  refine ⟨by decide, by decide, by decide, by decide, ?_⟩
  intro OrderByAsc OrderByDesc
  have hage : sortUsers OrderByAsc OrderByDesc demoUsers OrderByDesc "Age" = demoUsers := by
    simp only [sortUsers, if_true]
    decide
  rw [hage]
  decide

/-- C10 as amended: for every user list and every order field among `Name`,
`Age` and `Id` (empty meaning `Name`), `sortUsers` with
`orderBy = OrderByDesc` returns the users in non-decreasing order of that
field and with `orderBy = OrderByAsc` in non-increasing order of that field,
and for every `orderBy` and field the result is a permutation of the input
list. -/
theorem sortUsers_orders_by_field (OrderByAsc OrderByDesc : Int)
    (hne : OrderByAsc ≠ OrderByDesc) (users : List User) :
    ((sortUsers OrderByAsc OrderByDesc users OrderByDesc "Age").Pairwise
        (fun a b => a.Age ≤ b.Age) ∧
      (sortUsers OrderByAsc OrderByDesc users OrderByDesc "Id").Pairwise
        (fun a b => a.Id ≤ b.Id) ∧
      (sortUsers OrderByAsc OrderByDesc users OrderByDesc "Name").Pairwise
        (fun a b => stringLess b.Name a.Name = false) ∧
      (sortUsers OrderByAsc OrderByDesc users OrderByDesc "").Pairwise
        (fun a b => stringLess b.Name a.Name = false)) ∧
    ((sortUsers OrderByAsc OrderByDesc users OrderByAsc "Age").Pairwise
        (fun a b => a.Age ≥ b.Age) ∧
      (sortUsers OrderByAsc OrderByDesc users OrderByAsc "Id").Pairwise
        (fun a b => a.Id ≥ b.Id) ∧
      (sortUsers OrderByAsc OrderByDesc users OrderByAsc "Name").Pairwise
        (fun a b => stringLess a.Name b.Name = false) ∧
      (sortUsers OrderByAsc OrderByDesc users OrderByAsc "").Pairwise
        (fun a b => stringLess a.Name b.Name = false)) ∧
    (∀ orderBy field, (sortUsers OrderByAsc OrderByDesc users orderBy field).Perm users) := by
  refine ⟨⟨?_, ?_, ?_, ?_⟩, ⟨?_, ?_, ?_, ?_⟩, ?_⟩
  · simp only [sortUsers, if_true]
    exact sortSlice_int_ascending User.Age users
  · simp only [sortUsers, if_true]
    exact sortSlice_int_ascending User.Id users
  · simp only [sortUsers, if_true, true_or]
    exact sortSlice_name_ascending users
  · simp only [sortUsers, if_true, or_true]
    exact sortSlice_name_ascending users
  · simp only [sortUsers, if_true, if_neg hne]
    exact sortSlice_int_descending User.Age users
  · simp only [sortUsers, if_true, if_neg hne]
    exact sortSlice_int_descending User.Id users
  · simp only [sortUsers, if_true, true_or, if_neg hne]
    exact sortSlice_name_descending users
  · simp only [sortUsers, if_true, or_true, if_neg hne]
    exact sortSlice_name_descending users
  · intro orderBy field
    simp only [sortUsers]
    split_ifs <;> first | exact sortSlice_perm _ _ | exact List.Perm.refl _

theorem sortUsers_orders_by_field_witness :
    (sortUsers (-1) 1 demoUsers.reverse 1 "Name").Pairwise
        (fun a b => stringLess b.Name a.Name = false) ∧
      (sortUsers (-1) 1 demoUsers (-1) "Id").Pairwise (fun a b => a.Id ≥ b.Id) ∧
      (sortUsers (-1) 1 demoUsers (-1) "Id").Perm demoUsers ∧
      sortUsers (-1) 1 demoUsers.reverse 1 "Name" = demoUsers ∧
      sortUsers (-1) 1 demoUsers (-1) "Id" = demoUsers.reverse :=
  have h := sortUsers_orders_by_field (-1) 1 (by decide) demoUsers
  have h2 := sortUsers_orders_by_field (-1) 1 (by decide) demoUsers.reverse
  ⟨h2.1.2.2.1, h.2.1.2.1, h.2.2 (-1) "Id", by decide, by decide⟩

/-! ## `SearchServer`: negative `limit` and `offset` -/

/-- A value that `strconv.Atoi` returns is in the range of `int`. -/
theorem Atoi_range (s : String) (v : Int) (h : Atoi s = some v) :
    -9223372036854775808 ≤ v ∧ v < 9223372036854775808 := by
  simp only [Atoi] at h
  split at h
  · split at h
    · split_ifs at h
      simp only [Option.some.injEq] at h
      omega
    · simp at h
  · split at h
    · split_ifs at h
      simp only [Option.some.injEq] at h
      omega
    · simp at h
  · split at h
    · split_ifs at h
      simp only [Option.some.injEq] at h
      omega
    · simp at h

theorem wrapInt_le (x : Int) (h : -9223372036854775808 ≤ x) : wrapInt x ≤ x := by
  simp only [wrapInt]
  omega

theorem wrapInt_of_range (x : Int) (h1 : -9223372036854775808 ≤ x)
    (h2 : x < 9223372036854775808) : wrapInt x = x := by
  simp only [wrapInt]
  omega

/-- The slice expression panics on a negative lower bound and on an upper
bound below the lower one. -/
theorem sliceUsers_none (users : List User) (low high : Int) (h : low < 0 ∨ high < low) :
    sliceUsers users low high = none := by
  simp only [sliceUsers]
  rw [if_neg]
  omega

/-- Past the parsing of `limit` and `offset` (lines 119-136), a negative
`limit` or `offset` never gives a list of users. -/
theorem cutUsers_negative (users : List User) (L O : Int)
    (hL : -9223372036854775808 ≤ L ∧ L < 9223372036854775808)
    (hO : -9223372036854775808 ≤ O ∧ O < 9223372036854775808) (hneg : L < 0 ∨ O < 0)
    (us : List User) :
    cutUsers users (if L = 0 ∨ L > (users.length : Int) then (users.length : Int) else L) O ≠
      .response 200 (.users us) := by
  have hlen : (0 : Int) ≤ (users.length : Int) := Int.natCast_nonneg _
  have hprop : L < 0 →
      (if L = 0 ∨ L > (users.length : Int) then (users.length : Int) else L) = L := by
    intro h
    rw [if_neg]
    omega
  generalize (if L = 0 ∨ L > (users.length : Int) then (users.length : Int) else L) = lim
    at hprop
  have hnone : ¬ wrapInt (lim + O) > (users.length : Int) →
      sliceUsers users O (wrapInt (lim + O)) = none := by
    intro _
    by_cases hO0 : O < 0
    · exact sliceUsers_none users O _ (Or.inl hO0)
    · have hLneg : L < 0 := by
        rcases hneg with h | h
        · exact h
        · exact absurd h hO0
      rw [hprop hLneg, wrapInt_of_range (L + O) (by omega) (by omega)]
      exact sliceUsers_none users O _ (Or.inr (by omega))
  simp only [cutUsers]
  split_ifs with hguard
  · intro hcon
    simp at hcon
  · rw [hnone hguard]
    intro hcon
    simp at hcon

/-- With offset `-1` the end of `SearchServer` panics, whatever the limit at
most the length. -/
theorem cutUsers_offset_minus_one (users : List User) :
    cutUsers users (users.length : Int) (-1) = .panic := by
  have hw := wrapInt_le ((users.length : Int) + -1) (by omega)
  simp only [cutUsers]
  rw [if_neg (by omega), sliceUsers_none users (-1) _ (Or.inl (by decide))]

/-- With limit `-1` and offset `0` the end of `SearchServer` panics. -/
theorem cutUsers_limit_minus_one (users : List User) :
    cutUsers users (-1) 0 = .panic := by
  have hw : wrapInt (-1 + 0) = -1 := by decide
  simp only [cutUsers, hw]
  rw [if_neg (by omega), sliceUsers_none users 0 (-1) (Or.inr (by decide))]

/-- On an authorised request with an empty query and an empty order field
whose three numbers parse, `SearchServer` sorts unless the order is
`OrderByAsIs`, adjusts the limit (lines 119-121) and goes on to the cut. -/
theorem SearchServer_plain (OrderByAsc OrderByDesc OrderByAsIs : Int) (users : List User)
    (r : Request) (orderBy L O : Int) (htok : r.AccessToken = accessTokenOK)
    (hq : r.query = "") (hf : r.order_field = "") (hob : Atoi r.order_by = some orderBy)
    (hL : Atoi r.limit = some L) (hO : Atoi r.offset = some O) :
    SearchServer OrderByAsc OrderByDesc OrderByAsIs (some users) r =
      cutUsers
        (if orderBy ≠ OrderByAsIs then sortUsers OrderByAsc OrderByDesc users orderBy ""
          else users)
        (if L = 0 ∨ L > ((if orderBy ≠ OrderByAsIs then
            sortUsers OrderByAsc OrderByDesc users orderBy "" else users).length : Int) then
          ((if orderBy ≠ OrderByAsIs then
            sortUsers OrderByAsc OrderByDesc users orderBy "" else users).length : Int)
          else L) O := by
  unfold SearchServer
  rw [if_neg (by simp [htok]), hq, hf]
  rw [if_neg (by decide), if_neg (by decide), if_neg (by decide), if_neg (by decide),
    if_neg (by decide), if_neg (by decide)]
  simp only [hob, hL, hO, ne_eq, not_true_eq_false, if_false]

/-- C11, what the code does: for every data set the requests of
`TestFindUsers_NegativeOffset` (limit `0`, offset `-1`) and of
`TestFindUsers_NegativeLimit` (limit `-1`, offset `0`) pass the check of line
130 and end in the panic of the slice expression of line 136, its bounds out
of range, and no error response is written; and no request with a negative
`limit` or `offset` is answered with a list of users. -/
theorem SearchServer_negative_bounds_panic (OrderByAsc OrderByDesc OrderByAsIs : Int)
    (users : List User) :
    SearchServer OrderByAsc OrderByDesc OrderByAsIs (some users) negativeOffsetRequest =
      .panic ∧
    SearchServer OrderByAsc OrderByDesc OrderByAsIs (some users) negativeLimitRequest =
      .panic ∧
    (∀ (data : Option (List User)) (r : Request) (L O : Int),
      Atoi r.limit = some L → Atoi r.offset = some O → L < 0 ∨ O < 0 →
      ∀ us, SearchServer OrderByAsc OrderByDesc OrderByAsIs data r ≠
        .response 200 (.users us)) := by
  have h0 : Atoi "0" = some 0 := by decide
  have h1 : Atoi "-1" = some (-1) := by decide
  refine ⟨?_, ?_, ?_⟩
  · rw [SearchServer_plain OrderByAsc OrderByDesc OrderByAsIs users negativeOffsetRequest
      0 0 (-1) rfl rfl rfl h0 h0 h1]
    rw [if_pos (Or.inl rfl)]
    exact cutUsers_offset_minus_one _
  · rw [SearchServer_plain OrderByAsc OrderByDesc OrderByAsIs users negativeLimitRequest
      0 (-1) 0 rfl rfl rfl h0 h1 h0]
    have hlim : ∀ n : Nat,
        (if (-1 : Int) = 0 ∨ (-1 : Int) > (n : Int) then (n : Int) else -1) = -1 := by
      intro n
      rw [if_neg]
      omega
    rw [hlim]
    exact cutUsers_limit_minus_one _
  · intro data r L O hL hO hneg us
    have hLr := Atoi_range _ _ hL
    have hOr := Atoi_range _ _ hO
    unfold SearchServer
    by_cases c0 : r.AccessToken ≠ accessTokenOK
    · rw [if_pos c0]
      intro hcon
      injection hcon with hs hb
      exact absurd hs (by decide)
    rw [if_neg c0]
    by_cases c1 : r.query = "__internal_error"
    · rw [if_pos c1]
      intro hcon
      injection hcon with hs hb
      exact absurd hs (by decide)
    rw [if_neg c1]
    by_cases c2 : r.query = "__wrong_error_json"
    · rw [if_pos c2]
      intro hcon
      injection hcon with hs hb
      exact absurd hs (by decide)
    rw [if_neg c2]
    by_cases c3 : r.query = "__unknown_bad_request"
    · rw [if_pos c3]
      intro hcon
      injection hcon with hs hb
      exact absurd hs (by decide)
    rw [if_neg c3]
    by_cases c4 : r.query = "__timeout"
    · rw [if_pos c4]
      intro hcon
      injection hcon with hs hb
      exact absurd hs (by decide)
    rw [if_neg c4]
    by_cases c5 : r.order_field ≠ "Name" ∧ r.order_field ≠ "Age" ∧ r.order_field ≠ "Id" ∧
        r.order_field ≠ ""
    · rw [if_pos c5]
      intro hcon
      injection hcon with hs hb
      exact absurd hs (by decide)
    rw [if_neg c5]
    by_cases c6 : r.query = "__cant_unpack_result_json"
    · rw [if_pos c6]
      intro hcon
      injection hcon with hs hb
      cases hb
    rw [if_neg c6]
    cases data with
    | none =>
      intro hcon
      injection hcon with hs hb
      exact absurd hs (by decide)
    | some users0 =>
      cases hob : Atoi r.order_by with
      | none =>
        intro hcon
        injection hcon with hs hb
        exact absurd hs (by decide)
      | some orderBy =>
        simp only [hL, hO]
        exact cutUsers_negative _ L O hLr hOr hneg us

theorem SearchServer_negative_bounds_panic_witness :
    SearchServer (-1) 1 0 (some demoUsers) ⟨"qwerty", "", "", "0", "-1", "4"⟩ ≠
        .response 200 (.users demoUsers) ∧
      SearchServer (-1) 1 0 (some demoUsers) negativeOffsetRequest = .panic :=
  have h := SearchServer_negative_bounds_panic (-1) 1 0 demoUsers
  ⟨h.2.2 (some demoUsers) ⟨"qwerty", "", "", "0", "-1", "4"⟩ (-1) 4 (by decide) (by decide)
    (Or.inl (by decide)) demoUsers, h.1⟩

end Signer
